import Mathlib

/-!
# A shallow embedding of skeletondb (a Bw-tree MVCC key/value store)

This file embeds the core of the skeletondb Go sources into Lean:

* byte strings (`[]byte`) become `List Nat`; `bytes.Compare` becomes
  `bytesCompare` and `bytes.Equal` becomes decidable list equality;
* `time.Time` values become `Nat` timestamps; the sentinel `zeroTime`
  becomes `0`; `a.Before(b)` becomes `a < b`;
* `*Txn` pointers become transaction identifiers (`Nat`); pointer equality
  becomes identifier equality; the mutable `status` field is read through
  an environment `Env : Nat → TxnStatus` (it is read-only during a tree
  operation, and is only written by `finish`, modelled separately);
* the `delta` linked list (`next` pointers) becomes a `List Delta`, head
  first; the mapping-table slot's sentinel delta is dropped — a slot holds
  the chain that Go reaches via `sentinel.next`;
* the page mapping table `*[]*delta` becomes `List Chain`, 1-based ids;
* operations run sequentially: a CAS that no concurrent writer can defeat
  always succeeds, so a retry loop runs its body once (for `split`, whose
  claim mentions the CAS-failure branch, the CAS outcome is an explicit
  oracle argument);
* Go panics (nil dereference, out-of-range index, explicit `panic`) are
  modelled by an `Option` result, `none` meaning the program crashes.
-/

set_option autoImplicit false

namespace Skeleton

/-- Byte strings: `[]byte` as a list of byte values. -/
abbrev Bytes := List Nat

/-- `bytes.Compare`: lexicographic comparison of byte strings. -/
def bytesCompare : Bytes → Bytes → Ordering
  | [], [] => .eq
  | [], _ :: _ => .lt
  | _ :: _, [] => .gt
  | a :: as, b :: bs =>
    if a < b then .lt else if b < a then .gt else bytesCompare as bs

/-- An independent spelling of lexicographic "less or equal" on byte
strings, used to state routing facts without mentioning `bytesCompare`. -/
def lexLe : Bytes → Bytes → Bool
  | [], _ => true
  | _ :: _, [] => false
  | a :: as, b :: bs => decide (a < b) || (decide (a = b) && lexLe as bs)

/-- `TransactionStatus` from transaction.go / part_004. -/
inductive TxnStatus where
  | unknown
  | pending
  | aborted
  | committed
  deriving DecidableEq, Repr

/-- The transaction-status table: status of the transaction with a given
identifier. Go reads it through the `*Txn` pointer (`t.status`). -/
abbrev Env := Nat → TxnStatus

/-- `value`: a single timestamped version of a key (skeleton.go). -/
structure Value where
  value : Bytes
  time : Nat
  tombstone : Bool
  deriving DecidableEq, Repr

/-- `key`: a key record with its version list (skeleton.go). `txn = none`
models a nil `*Txn` pointer. -/
structure Key where
  key : Bytes
  txn : Option Nat
  values : List Value
  read : Bool
  deriving DecidableEq, Repr

/-- `page`: `key = none` marks a data page, `key = some sep` an index page
with separator `sep` (skeleton.go). -/
structure Page where
  id : Nat
  key : Option Bytes
  keys : List Key
  left : Nat
  right : Nat
  deriving DecidableEq, Repr

/-- One link of a delta chain: either a key-delta or a page-delta. Go
represents this as a struct with two nullable pointers and panics when
both or neither is set; the sum type carries the same information. -/
inductive Delta where
  | keyD (k : Key)
  | pageD (p : Page)
  deriving DecidableEq, Repr

/-- A delta chain, head first. The tail of a well-formed chain is the
unique page-delta. -/
abbrev Chain := List Delta

/-- The result shape of `Get`/`GetAt`: Go's `([]byte, bool)` with
`none` standing for a nil byte slice. -/
abbrev GetRes := Option Bytes × Bool

/-- `key.getAt`'s version loop (skeleton.go lines 308-317): iterate the
versions newest to oldest, skip entries newer than the snapshot `att`
(unless `att` is the zero time), and decide on the first remaining one. -/
def kGetAtLoop (att : Nat) : List Value → GetRes
  | [] => (none, false)
  | v :: rest =>
    if att ≠ 0 ∧ att < v.time then kGetAtLoop att rest
    else if v.tombstone then (none, true)
    else (some v.value, true)

/-- `key.getAt` (skeleton.go lines 304-318), translated faithfully,
including the guard's `txn != txn` comparison of the reader parameter
with itself (the source reads
`if k.txn != nil && txn != txn && k.txn.status != StatusCommitted`). -/
def kGetAt (env : Env) (k : Key) (txn : Option Nat) (att : Nat) : GetRes :=
  match k.txn with
  | some t =>
    if txn ≠ txn ∧ env t ≠ .committed then (none, false)
    else kGetAtLoop att k.values
  | none => kGetAtLoop att k.values

/-- Configuration and mutable database state. `pages` is the mapping
table (slot `i` holds the chain of page-id `i+1`); `clock` models the
wall clock sampled by `time.Now()` (strictly increasing); the queues are
scheduling hints only and are not part of the modelled state. -/
structure DBState where
  pages : List Chain
  largestPageID : Nat
  pageIDPool : List Nat
  clock : Nat
  maxDeltaCount : Nat
  maxKeysPerNode : Nat
  deriving DecidableEq, Repr

/-- `db.getPage(id)` followed by `.next`: the chain stored at a page id.
Go panics on an out-of-range id; the claims below only touch in-range
ids, where `getD` agrees with the source. -/
def getChain (s : DBState) (id : Nat) : Chain :=
  s.pages.getD (id - 1) []

/-- Store a new chain head at a page id (a successful `savePageNext`). -/
def setChain (s : DBState) (id : Nat) (c : Chain) : DBState :=
  { s with pages := s.pages.set (id - 1) c }

/-- One step of `db.getAt`'s chain walk: either a final answer or a
descent to a child page id. -/
inductive StepRes where
  | result (r : GetRes)
  | descend (id : Nat)
  deriving DecidableEq, Repr

/-- The body of `db.getAt`'s loop (skeleton.go lines 388-427) on one
chain: key-deltas owned by a pending or aborted foreign transaction are
skipped; a matching key-delta answers if its version lookup succeeds; an
index page routes by `bytes.Compare(page.key, key) <= 0` to the right
child, otherwise left; a data page answers from its sorted key list. -/
def chainStep (env : Env) (txn : Option Nat) (q : Bytes) (att : Nat) :
    Chain → StepRes
  | [] => .result (none, false)
  | .pageD p :: _ =>
    match p.key with
    | some sep =>
      .descend (if bytesCompare sep q ≠ .gt then p.right else p.left)
    | none =>
      match p.keys.find? (fun e => e.key = q) with
      | some e => .result (kGetAt env e txn att)
      | none => .result (none, false)
  | .keyD k :: rest =>
    if (match k.txn with
        | some t => decide (txn ≠ some t) && decide (env t ≠ .committed)
        | none => false) then
      chainStep env txn q att rest
    else if k.key = q then
      match kGetAt env k txn att with
      | (v, true) => .result (v, true)
      | (_, false) => chainStep env txn q att rest
    else
      chainStep env txn q att rest

/-- `db.getAt`'s outer loop over page hops, with fuel bounding the number
of index-page descents (the Go loop relies on the tree being acyclic). -/
def getAtLoop (env : Env) (s : DBState) (txn : Option Nat) (q : Bytes)
    (att : Nat) : Nat → Nat → GetRes
  | 0, _ => (none, false)
  | fuel + 1, id =>
    match chainStep env txn q att (getChain s id) with
    | .result r => r
    | .descend id2 => getAtLoop env s txn q att fuel id2

/-- `db.getAt` (skeleton.go lines 378-429): start at the root page.
`s.pages.length + 1` hops suffice for any acyclic descent. -/
def dbGetAt (env : Env) (s : DBState) (txn : Option Nat) (q : Bytes)
    (att : Nat) : GetRes :=
  getAtLoop env s txn q att (s.pages.length + 1) 1

/-- `db.Get` / `txn == nil`, `at == zeroTime`. -/
def dbGet (s : DBState) (q : Bytes) : GetRes :=
  dbGetAt (fun _ => .unknown) s none q 0

/-- `putKey`'s descent loop (skeleton.go lines 469-486): keep descending
while the chain head is a page-delta carrying an index page; stop at the
page whose head is a key-delta or a data page. `none` models the nil
dereference Go performs on an empty chain, and fuel exhaustion on a
cyclic id graph. -/
def putDescendLoop (s : DBState) (q : Bytes) : Nat → Nat → Option Nat
  | 0, _ => none
  | fuel + 1, id =>
    match getChain s id with
    | [] => none
    | .pageD p :: _ =>
      match p.key with
      | some sep =>
        putDescendLoop s q fuel
          (if bytesCompare sep q ≠ .gt then p.right else p.left)
      | none => some id
    | .keyD _ :: _ => some id

/-- `putKey`'s conflict scan (skeleton.go lines 489-497): walk the leaf
chain; a key-delta owned by a different, still-pending transaction on the
same key is a conflict. `ktxn` is the writing record's transaction. -/
def conflictScan (env : Env) (ktxn : Option Nat) (q : Bytes) : Chain → Bool
  | [] => false
  | .pageD _ :: rest => conflictScan env ktxn q rest
  | .keyD k :: rest =>
    match k.txn with
    | none => conflictScan env ktxn q rest
    | some t =>
      if some t = ktxn ∨ env t ≠ .pending then conflictScan env ktxn q rest
      else if k.key = q then true
      else conflictScan env ktxn q rest

/-- Outcome of `putKey`: `conflict` is the `ErrTxnConflict` return, `ok`
carries the state after the successful prepend-CAS. -/
inductive PutRes where
  | conflict
  | ok (s : DBState)
  deriving DecidableEq, Repr

/-- `putKey` (skeleton.go lines 467-508), sequentially: descend to the
leaf, scan for a pending foreign intent on the same key, and otherwise
prepend the new key-delta (the CAS succeeds with no interference, so the
retry loop runs once). -/
def putKey (env : Env) (s : DBState) (k : Key) : Option PutRes :=
  match putDescendLoop s k.key (s.pages.length + 1) 1 with
  | none => none
  | some id =>
    if conflictScan env k.txn k.key (getChain s id) then some .conflict
    else some (.ok (setChain s id (.keyD k :: getChain s id)))

/-- `db.put` (skeleton.go lines 436-447): a fresh single-version record
stamped with the current clock. -/
def dbPut (env : Env) (s : DBState) (txn : Option Nat) (k v : Bytes) :
    Option PutRes :=
  putKey env { s with clock := s.clock + 1 }
    ⟨k, txn, [⟨v, s.clock + 1, false⟩], false⟩

/-- `db.delete` (skeleton.go lines 454-465): a fresh tombstone version. -/
def dbDelete (env : Env) (s : DBState) (txn : Option Nat) (k : Bytes) :
    Option PutRes :=
  putKey env { s with clock := s.clock + 1 }
    ⟨k, txn, [⟨[], s.clock + 1, true⟩], false⟩

/-- The state `NewDB` builds with the default config: one slot holding an
empty data page with id 1 (skeleton.go lines 215-240, part_001). -/
def initState : DBState :=
  { pages := [[.pageD ⟨1, none, [], 0, 0⟩]]
    largestPageID := 1
    pageIDPool := []
    clock := 0
    maxDeltaCount := 10
    maxKeysPerNode := 100 }

/-- A non-transactional foreground operation. -/
inductive Op where
  | put (k v : Bytes)
  | del (k : Bytes)
  deriving DecidableEq, Repr

/-- Apply one non-transactional operation. In the single-threaded runs
the claims quantify over, `putKey` neither crashes nor conflicts (proved
below); the fallback keeping `s` is never exercised there. -/
def applyOp (s : DBState) (op : Op) : DBState :=
  match op with
  | .put k v =>
    match dbPut (fun _ => .unknown) s none k v with
    | some (.ok s2) => s2
    | _ => s
  | .del k =>
    match dbDelete (fun _ => .unknown) s none k with
    | some (.ok s2) => s2
    | _ => s

/-- A single-threaded execution: fold the operations over the fresh
database state. -/
def exec (ops : List Op) : DBState :=
  ops.foldl applyOp initState

/-- Errors surfaced by the public API. -/
inductive DBError where
  | txnConflict
  deriving DecidableEq, Repr

/-- `Txn.finish` (part_004 lines 57-62): CAS the status from pending to
the target; a lost CAS returns `ErrTxnConflict`. Returns the new status
and the error result. -/
def finish (st : TxnStatus) (status : TxnStatus) :
    TxnStatus × Option DBError :=
  if st = .pending then (status, none) else (st, some .txnConflict)

/-- `Txn.Commit` (part_004 lines 64-67). -/
def commit (st : TxnStatus) : TxnStatus × Option DBError :=
  finish st .committed

/-- `Txn.Close` (part_004 lines 69-72). -/
def closeTxn (st : TxnStatus) : TxnStatus × Option DBError :=
  finish st .aborted

/-- Run a sequence of `finish` calls (each a `Commit` or `Close` target)
against one transaction's status, collecting each call's error result. -/
def runFinishes : TxnStatus → List TxnStatus → TxnStatus × List (Option DBError)
  | st, [] => (st, [])
  | st, t :: ts =>
    let r := finish st t
    let rec2 := runFinishes r.1 ts
    (rec2.1, r.2 :: rec2.2)

/-- `delta.isPending` (delta.go): a key-delta whose owning transaction is
still pending. -/
def isPendingNode (env : Env) : Delta → Bool
  | .keyD k =>
    match k.txn with
    | some t => env t = .pending
    | none => false
  | .pageD _ => false

/-- `delta.deltaCount` (delta.go, newer variant): count the non-tail
nodes that are not pending (the loop runs while `d.next != nil`). -/
def deltaCount (env : Env) : Chain → Nat
  | [] => 0
  | [_] => 0
  | d :: d2 :: rest =>
    (if isPendingNode env d then 0 else 1) + deltaCount env (d2 :: rest)

/-- `delta.getPage` (delta.go): walk to the tail and return its page;
`none` when the tail is not a page-delta, when the chain is empty, or
when a non-tail node carries a page (all of which panic in Go). -/
def chainBase : Chain → Option Page
  | [] => none
  | [.pageD p] => some p
  | [.keyD _] => none
  | .pageD _ :: _ :: _ => none
  | .keyD _ :: d :: rest => chainBase (d :: rest)

/-- The single pass of `consolidate` over the chain (part_006 lines
40-66): collect, in chain order, the committed-or-transactionless
non-read-intent key records (`keys`), the pending key-deltas (`head`/
`tail` accumulation, order preserved), and the last page seen. -/
def consolidatePass (env : Env) : Chain → List Key × Chain × Option Page
  | [] => ([], [], none)
  | .keyD k :: rest =>
    let r := consolidatePass env rest
    match k.txn with
    | none => (if k.read then r.1 else k :: r.1, r.2.1, r.2.2)
    | some t =>
      if env t = .committed then (if k.read then r.1 else k :: r.1, r.2.1, r.2.2)
      else if env t = .pending then (r.1, .keyD k :: r.2.1, r.2.2)
      else r
  | .pageD p :: rest =>
    let r := consolidatePass env rest
    (r.1, r.2.1, some (r.2.2.getD p))

/-- `byKey.Less` (skeleton.go lines 292-302): order by key ascending,
ties by first-version time descending. Go sorts pointers to key records
with no values only as read intents, which the collection excludes; the
`headD` default is therefore never reached on the sorted inputs. -/
def byKeyLess (a b : Key) : Bool :=
  match bytesCompare a.key b.key with
  | .lt => true
  | .gt => false
  | .eq => (b.values.headD ⟨[], 0, false⟩).time < (a.values.headD ⟨[], 0, false⟩).time

/-- Insert into a `byKeyLess`-sorted list. `sort.Sort` guarantees only a
`Less`-sorted permutation (it is unstable); this deterministic insertion
sort satisfies the same contract. -/
def insertByKey (a : Key) : List Key → List Key
  | [] => [a]
  | b :: rest => if byKeyLess a b then a :: b :: rest else b :: insertByKey a rest

/-- `sort.Sort(byKey(keys))`, modelled as insertion sort. -/
def sortByKey : List Key → List Key
  | [] => []
  | a :: rest => insertByKey a (sortByKey rest)

/-- The collected-key branch of `consolidate`'s merge loop (part_006
lines 79-90): emit `b`, unless its key equals the previously emitted
key (`prevKey`), in which case its newer versions are prepended to that
key's version list. `acc` holds the emitted keys in reverse, so the
previously emitted key is its head. -/
def mergePrev (acc : List Key) (b : Key) : List Key :=
  match acc with
  | prev :: acc2 =>
    if b.key = prev.key then
      { prev with values := b.values ++ prev.values } :: acc2
    else b :: prev :: acc2
  | [] => [b]

/-- The merge loop of `consolidate` (part_006 lines 73-92): walk the base
page's sorted keys and the sorted collected keys; the base key is taken
when `bytes.Compare(base.key, collected.key) <= 0`, otherwise the
collected key goes through `mergePrev`. `acc` holds the emitted keys in
reverse. -/
def mergeLoop (acc : List Key) : List Key → List Key → List Key
  | [], [] => acc.reverse
  | p :: pk, [] => mergeLoop (p :: acc) pk []
  | [], b :: ks => mergeLoop (mergePrev acc b) [] ks
  | p :: pk, b :: ks =>
    if bytesCompare p.key b.key ≠ .gt then mergeLoop (p :: acc) pk (b :: ks)
    else mergeLoop (mergePrev acc b) (p :: pk) ks
  termination_by pk ks => pk.length + ks.length

/-- `db.consolidate` (part_006 lines 24-112), sequentially: no change
under the delta threshold; otherwise rebuild the chain as the preserved
pending deltas followed by a single page-delta merging the base with the
sorted committed keys. `none` models the panics (no base page at the
tail, or an index page at a leaf slot). -/
def consolidate (env : Env) (s : DBState) (id : Nat) : Option DBState :=
  let root := getChain s id
  if deltaCount env root ≤ s.maxDeltaCount then some s
  else
    let pass := consolidatePass env root
    match pass.2.2 with
    | none => none
    | some basePage =>
      match basePage.key with
      | some _ => none
      | none =>
        let newKeys := mergeLoop [] basePage.keys (sortByKey pass.1)
        let newPage : Page := { basePage with keys := newKeys }
        some (setChain s id (pass.2.1 ++ [.pageD newPage]))

/-- The growth loop of `nextPageID` (skeleton.go lines 252-267): double
the table (minimum length 1), filling new slots with empty chains, until
the id fits. -/
def growPages (pages : List Chain) (id : Nat) : List Chain :=
  if id ≤ pages.length then pages
  else
    growPages (pages ++ List.replicate (max (2 * pages.length) 1 - pages.length) []) id
  termination_by id - pages.length
  decreasing_by
    simp only [List.length_append, List.length_replicate]
    omega

/-- `db.nextPageID` (skeleton.go lines 244-269): take a recycled id from
the pool, else increment the counter; grow the table to fit. -/
def nextPageID (s : DBState) : DBState × Nat :=
  match s.pageIDPool with
  | i :: rest =>
    ({ s with pageIDPool := rest, pages := growPages s.pages i }, i)
  | [] =>
    let i := s.largestPageID + 1
    ({ s with largestPageID := i, pages := growPages s.pages i }, i)

/-- The delta-relinking loop of `split` (part_006 lines 158-168): clone
each non-tail delta and prepend it to the right child's chain when
`bytes.Compare(sep, key) <= 0`, else to the left child's chain. `none`
models the nil dereference when a non-tail node is a page-delta. -/
def relinkLoop (sep : Bytes) : Chain → Chain → Chain → Option (Chain × Chain)
  | [], lch, rch => some (lch, rch)
  | .pageD _ :: _, _, _ => none
  | .keyD k :: rest, lch, rch =>
    if bytesCompare sep k.key ≠ .gt then relinkLoop sep rest lch (.keyD k :: rch)
    else relinkLoop sep rest (.keyD k :: lch) rch

/-- One iteration of `split`'s loop up to (but not including) the CAS
(part_006 lines 128-174): read the chain, stop under the key threshold,
pick the separator, allocate the children, relink the preserved deltas,
and write the child slots. Returns the pre-CAS state, the child ids, and
the new root chain; `.stop` is the under-threshold return. -/
inductive SplitBuild where
  | stop
  | built (s3 : DBState) (lid rid : Nat) (newRoot : Chain)
  deriving Repr

def splitBuild (s : DBState) (id : Nat) : Option SplitBuild :=
  let root := getChain s id
  match chainBase root with
  | none => none
  | some p =>
    if p.keys.length ≤ s.maxKeysPerNode then some .stop
    else
      let mid := p.keys.length / 2
      match p.keys.get? mid with
      | none => none
      | some midEntry =>
        let sep := midEntry.key
        let a1 := nextPageID s
        let a2 := nextPageID a1.1
        let lid := a1.2
        let rid := a2.2
        let leftPage : Page := ⟨lid, none, p.keys.take mid, 0, 0⟩
        let rightPage : Page := ⟨rid, none, p.keys.drop mid, 0, 0⟩
        match relinkLoop sep root.dropLast [.pageD leftPage] [.pageD rightPage] with
        | none => none
        | some chains =>
          let s3 := setChain (setChain a2.1 lid chains.1) rid chains.2
          some (.built s3 lid rid [.pageD ⟨p.id, some sep, [], lid, rid⟩])

/-- `db.split` (part_006 lines 125-186). The oracle lists the outcomes of
successive install CASes (`false` = lost to interference); an exhausted
oracle means the CAS succeeds, which is the only sequential outcome. On a
lost CAS the child ids go back to the pool and the loop restarts. -/
def splitLoop (s : DBState) (id : Nat) (oracle : List Bool) : Option DBState :=
  match splitBuild s id with
  | none => none
  | some .stop => some s
  | some (.built s3 lid rid newRoot) =>
    match oracle with
    | [] => some (setChain s3 id newRoot)
    | true :: _ => some (setChain s3 id newRoot)
    | false :: rest =>
      splitLoop { s3 with pageIDPool := s3.pageIDPool ++ [lid, rid] } id rest
  termination_by oracle.length
  decreasing_by simp

/-! ## Routing (claim C1) -/

/-- Modelled from the spec's words, for comparison with `chainStep`: the
traversal step under the claim's routing rule — a search key `q` with
`q ≤ separator` descends to `right`, `q > separator` to `left`. Identical
to `chainStep` except for the routing comparison. -/
def chainStepSpecRoute (env : Env) (txn : Option Nat) (q : Bytes) (att : Nat) :
    Chain → StepRes
  | [] => .result (none, false)
  | .pageD p :: _ =>
    match p.key with
    | some sep =>
      .descend (if bytesCompare q sep ≠ .gt then p.right else p.left)
    | none =>
      match p.keys.find? (fun e => e.key = q) with
      | some e => .result (kGetAt env e txn att)
      | none => .result (none, false)
  | .keyD k :: rest =>
    if (match k.txn with
        | some t => decide (txn ≠ some t) && decide (env t ≠ .committed)
        | none => false) then
      chainStepSpecRoute env txn q att rest
    else if k.key = q then
      match kGetAt env k txn att with
      | (v, true) => .result (v, true)
      | (_, false) => chainStepSpecRoute env txn q att rest
    else
      chainStepSpecRoute env txn q att rest

/-- The traversal under the claim's routing rule. -/
def getAtLoopSpecRoute (env : Env) (s : DBState) (txn : Option Nat)
    (q : Bytes) (att : Nat) : Nat → Nat → GetRes
  | 0, _ => (none, false)
  | fuel + 1, id =>
    match chainStepSpecRoute env txn q att (getChain s id) with
    | .result r => r
    | .descend id2 => getAtLoopSpecRoute env s txn q att fuel id2

/-- `db.getAt` under the claim's routing rule. -/
def dbGetAtSpecRoute (env : Env) (s : DBState) (txn : Option Nat)
    (q : Bytes) (att : Nat) : GetRes :=
  getAtLoopSpecRoute env s txn q att (s.pages.length + 1) 1

/-- A two-level tree: index root with separator 0x01, left child (page 2)
holding key 0x00 ↦ 0x07, right child (page 3) holding 0x01 ↦ 0x09. -/
def routeState : DBState :=
  { pages :=
      [[.pageD ⟨1, some [1], [], 2, 3⟩],
       [.pageD ⟨2, none, [⟨[0], none, [⟨[7], 1, false⟩], false⟩], 0, 0⟩],
       [.pageD ⟨3, none, [⟨[1], none, [⟨[9], 1, false⟩], false⟩], 0, 0⟩]]
    largestPageID := 3
    pageIDPool := []
    clock := 1
    maxDeltaCount := 10
    maxKeysPerNode := 100 }

/-- Counterexample to claim C1 at the concrete input `q = 0x00`,
`separator = 0x01` (so `q ≤ separator`): the claim routes the search to
the right child, which would yield `(⊥, false)` (conjunct 2), but the
code descends to the left child and returns its value (conjunct 1). The
final conjunct shows the same at `split`'s relinking: a preserved delta
with key 0x01 ≤ separator 0x05 is placed on the left chain, not the
right. -/
theorem claim_c1_counterexample :
    dbGetAt (fun _ => .unknown) routeState none [0] 0 = (some [7], true) ∧
    dbGetAtSpecRoute (fun _ => .unknown) routeState none [0] 0 = (none, false) ∧
    lexLe [0] [1] = true ∧
    relinkLoop [5] [.keyD ⟨[1], none, [], false⟩]
        [.pageD ⟨4, none, [], 0, 0⟩] [.pageD ⟨5, none, [], 0, 0⟩]
      = some ([.keyD ⟨[1], none, [], false⟩, .pageD ⟨4, none, [], 0, 0⟩],
          [.pageD ⟨5, none, [], 0, 0⟩]) := by
  decide

theorem bytesCompare_ne_gt_iff : ∀ a b : Bytes,
    (bytesCompare a b ≠ .gt) ↔ lexLe a b = true
  | [], [] => by simp [bytesCompare, lexLe]
  | [], _ :: _ => by simp [bytesCompare, lexLe]
  | _ :: _, [] => by simp [bytesCompare, lexLe]
  | a :: as, b :: bs => by
    simp only [bytesCompare, lexLe]
    rcases Nat.lt_trichotomy a b with h | h | h
    · simp [h]
    · subst h
      simp [Nat.lt_irrefl, bytesCompare_ne_gt_iff as bs]
    · simp [Nat.lt_asymm h, h, Nat.ne_of_gt h]

/-- Claim C1, amended: the code routes with the opposite inequality —
a search key `q` descends to `right` when `separator ≤ q` and to `left`
when `q < separator`, in `getAt`'s traversal (conjunct 1) and `putKey`'s
descent (conjunct 2); and `split` re-links a preserved key-delta onto the
right child's chain when `separator ≤ K.key` and onto the left chain when
`K.key < separator` (conjunct 3). -/
theorem claim_c1_routing_amended :
    (∀ env txn q att p (rest : Chain) sep, p.key = some sep →
      chainStep env txn q att (.pageD p :: rest)
        = .descend (if lexLe sep q then p.right else p.left)) ∧
    (∀ s q fuel id p (rest : Chain) sep, getChain s id = .pageD p :: rest →
      p.key = some sep →
      putDescendLoop s q (fuel + 1) id
        = putDescendLoop s q fuel (if lexLe sep q then p.right else p.left)) ∧
    (∀ sep k (rest : Chain) lch rch,
      relinkLoop sep (.keyD k :: rest) lch rch
        = if lexLe sep k.key
          then relinkLoop sep rest lch (.keyD k :: rch)
          else relinkLoop sep rest (.keyD k :: lch) rch) := by
  refine ⟨?_, ?_, ?_⟩
  · intro env txn q att p rest sep hsep
    simp only [chainStep, hsep]
    by_cases h : lexLe sep q = true
    · rw [if_pos ((bytesCompare_ne_gt_iff sep q).mpr h), if_pos h]
    · rw [if_neg (fun hc => h ((bytesCompare_ne_gt_iff sep q).mp hc)),
        if_neg (by simpa using h)]
  · intro s q fuel id p rest sep hchain hsep
    simp only [putDescendLoop, hchain, hsep]
    by_cases h : lexLe sep q = true
    · rw [if_pos ((bytesCompare_ne_gt_iff sep q).mpr h), if_pos h]
    · rw [if_neg (fun hc => h ((bytesCompare_ne_gt_iff sep q).mp hc)),
        if_neg (by simpa using h)]
  · intro sep k rest lch rch
    simp only [relinkLoop]
    by_cases h : lexLe sep k.key = true
    · rw [if_pos ((bytesCompare_ne_gt_iff sep k.key).mpr h), if_pos h]
    · rw [if_neg (fun hc => h ((bytesCompare_ne_gt_iff sep k.key).mp hc)),
        if_neg (by simpa using h)]

/-- Witness for the amended C1 at the index root of `routeState`:
`q = 0x00 < separator = 0x01` descends left (page 2). -/
theorem claim_c1_witness :
    (Page.key ⟨1, some [1], ([] : List Key), 2, 3⟩ = some [1]) ∧
    chainStep (fun _ => .unknown) none [0] 0 [.pageD ⟨1, some [1], [], 2, 3⟩]
      = .descend (if lexLe [1] [0] then 3 else 2) :=
  ⟨rfl, claim_c1_routing_amended.1 (fun _ => .unknown) none [0] 0
    ⟨1, some [1], [], 2, 3⟩ [] [1] rfl⟩

/-! ## Version-list lookup (claims C2, C6) -/

/-- The spec's visibility test at snapshot `att`: an entry is kept when
`att` is the zero time or the entry is not newer than `att`. -/
def visibleAt (att : Nat) (v : Value) : Bool :=
  decide (att = 0) || decide (v.time ≤ att)

theorem kGetAtLoop_eq_filter (att : Nat) (vs : List Value) :
    kGetAtLoop att vs =
      match (vs.filter (visibleAt att)).head? with
      | none => (none, false)
      | some v => if v.tombstone then (none, true) else (some v.value, true) := by
  induction vs with
  | nil => rfl
  | cons v rest ih =>
    by_cases hskip : att ≠ 0 ∧ att < v.time
    · have hvis : visibleAt att v = false := by
        simp only [visibleAt, Bool.or_eq_false_iff, decide_eq_false_iff_not]
        omega
      simp [kGetAtLoop, hskip, List.filter_cons, hvis, ih]
    · have hvis : visibleAt att v = true := by
        simp only [visibleAt, Bool.or_eq_true, decide_eq_true_eq]
        omega
      simp [kGetAtLoop, hskip, List.filter_cons, hvis]

/-- The reader-blocking guard of `key.getAt` never fires: its middle
conjunct compares the reader with itself. -/
theorem kGetAt_eq_loop (env : Env) (k : Key) (txn : Option Nat) (att : Nat) :
    kGetAt env k txn att = kGetAtLoop att k.values := by
  unfold kGetAt
  cases k.txn <;> simp

/-- Claim C2: the claim states that a reader that is not the owner of a
key record whose transaction is not committed gets `(⊥, false)` without
consulting the versions. The code's guard reads `txn != txn` (the reader
compared with itself), so it never fires: at the failing input — a record
owned by the pending transaction 0, read by the nil reader at the zero
time — `key.getAt` returns the pending value `(0x07, true)`. The second
conjunct shows the guard is dead at every input. -/
theorem claim_c2_pending_visible :
    kGetAt (fun _ => .pending) ⟨[0], some 0, [⟨[7], 1, false⟩], false⟩ none 0
      = (some [7], true) ∧
    (∀ env k txn att, kGetAt env k txn att = kGetAtLoop att k.values) :=
  ⟨rfl, kGetAt_eq_loop⟩

/-- Claim C6: for a key record whose lookup is not blocked — no owning
transaction, or a committed one, or the reader owns it — `key.getAt`
returns the decision on the first version visible at the snapshot:
`(⊥, true)` for a tombstone, `(value, true)` otherwise, `(⊥, false)` when
no version is visible. -/
theorem claim_c6_getAt_visible (env : Env) (k : Key) (txn : Option Nat)
    (att : Nat)
    (h : k.txn = none ∨ (∃ t, k.txn = some t ∧ env t = .committed) ∨
      (∃ t, k.txn = some t ∧ txn = some t)) :
    kGetAt env k txn att =
      match (k.values.filter (visibleAt att)).head? with
      | none => (none, false)
      | some v => if v.tombstone then (none, true) else (some v.value, true) :=
  (kGetAt_eq_loop env k txn att).trans (kGetAtLoop_eq_filter att k.values)

/-- Witness for C6 at a concrete unowned record with one visible
version. -/
theorem claim_c6_witness :
    ((⟨[3], none, [⟨[1], 2, false⟩], false⟩ : Key).txn = none ∨
      (∃ t, (⟨[3], none, [⟨[1], 2, false⟩], false⟩ : Key).txn = some t ∧
        (fun _ => TxnStatus.unknown) t = .committed) ∨
      (∃ t, (⟨[3], none, [⟨[1], 2, false⟩], false⟩ : Key).txn = some t ∧
        (none : Option Nat) = some t)) ∧
    kGetAt (fun _ => .unknown) ⟨[3], none, [⟨[1], 2, false⟩], false⟩ none 5
      = (some [1], true) :=
  ⟨Or.inl rfl,
    (claim_c6_getAt_visible (fun _ => .unknown) ⟨[3], none, [⟨[1], 2, false⟩], false⟩
      none 5 (Or.inl rfl)).trans (by decide)⟩

/-! ## Transaction termination (claim C9) -/

theorem runFinishes_terminal (st : TxnStatus) (ts : List TxnStatus)
    (h : st ≠ .pending) :
    runFinishes st ts = (st, ts.map fun _ => some .txnConflict) := by
  induction ts with
  | nil => rfl
  | cons t rest ih => simp [runFinishes, finish, h, ih]

/-- Claim C9: starting from `Pending`, the first `Commit`/`Close` call
succeeds (returns nil) and moves the status to its terminal target; every
subsequent call returns `ErrTxnConflict`; after the first call the status
equals the first target forever. -/
theorem claim_c9_finish_once (calls : List TxnStatus) (h1 : calls ≠ [])
    (h2 : ∀ t ∈ calls, t = .committed ∨ t = .aborted) :
    (runFinishes .pending calls).2.head? = some none ∧
    (∀ i, 0 < i → i < calls.length →
      (runFinishes .pending calls).2.get? i = some (some .txnConflict)) ∧
    (runFinishes .pending calls).1 = calls.headD .pending ∧
    (runFinishes .pending calls).1 ≠ .pending ∧
    (∀ n, 1 ≤ n →
      (runFinishes .pending (calls.take n)).1 = calls.headD .pending) := by
  match calls, h1 with
  | c :: ts, _ =>
    have hc : c = .committed ∨ c = .aborted := h2 c (List.mem_cons_self c ts)
    have hcp : c ≠ .pending := by rcases hc with h | h <;> simp [h]
    have hrun : runFinishes .pending (c :: ts)
        = (c, none :: ts.map fun _ => some .txnConflict) := by
      simp [runFinishes, finish, runFinishes_terminal c ts hcp]
    refine ⟨by simp [hrun], ?_, by simp [hrun], by simp [hrun, hcp], ?_⟩
    · intro i hi hlen
      simp only [hrun]
      match i, hi with
      | j + 1, _ =>
        have hj : j < ts.length := by
          simpa [List.length_cons] using hlen
        simp [List.getElem?_replicate, hj]
    · intro n hn
      match n, hn with
      | m + 1, _ =>
        simp [List.take, runFinishes, finish,
          runFinishes_terminal c (ts.take m) hcp]

/-! ## Write-write conflict detection (claim C3) -/

theorem conflictScan_iff (env : Env) (ktxn : Option Nat) (q : Bytes) :
    ∀ c : Chain, conflictScan env ktxn q c = true ↔
      ∃ k2 t, Delta.keyD k2 ∈ c ∧ k2.txn = some t ∧ some t ≠ ktxn ∧
        env t = .pending ∧ k2.key = q
  | [] => by simp [conflictScan]
  | .pageD p :: rest => by
    rw [conflictScan, conflictScan_iff env ktxn q rest]
    constructor
    · rintro ⟨k2, t, hmem, hrest⟩
      exact ⟨k2, t, List.mem_cons_of_mem _ hmem, hrest⟩
    · rintro ⟨k2, t, hmem, hrest⟩
      rcases List.mem_cons.mp hmem with hk | hk
      · cases hk
      · exact ⟨k2, t, hk, hrest⟩
  | .keyD k :: rest => by
    have tailIff := conflictScan_iff env ktxn q rest
    rcases htxn : k.txn with _ | t
    · have hstep : conflictScan env ktxn q (.keyD k :: rest)
          = conflictScan env ktxn q rest := by
        rw [conflictScan, htxn]
      rw [hstep, tailIff]
      constructor
      · rintro ⟨k2, t, hmem, h1, h2, h3, h4⟩
        exact ⟨k2, t, List.mem_cons_of_mem _ hmem, h1, h2, h3, h4⟩
      · rintro ⟨k2, t, hmem, h1, h2, h3, h4⟩
        rcases List.mem_cons.mp hmem with hk | hk
        · cases hk
          rw [htxn] at h1
          cases h1
        · exact ⟨k2, t, hk, h1, h2, h3, h4⟩
    · by_cases hskip : some t = ktxn ∨ env t ≠ .pending
      · have hstep : conflictScan env ktxn q (.keyD k :: rest)
            = conflictScan env ktxn q rest := by
          rw [conflictScan, htxn]
          exact if_pos hskip
        rw [hstep, tailIff]
        constructor
        · rintro ⟨k2, t2, hmem, h1, h2, h3, h4⟩
          exact ⟨k2, t2, List.mem_cons_of_mem _ hmem, h1, h2, h3, h4⟩
        · rintro ⟨k2, t2, hmem, h1, h2, h3, h4⟩
          rcases List.mem_cons.mp hmem with hk | hk
          · cases hk
            rw [htxn] at h1
            cases h1
            rcases hskip with hs | hs
            · exact absurd hs h2
            · exact absurd h3 hs
          · exact ⟨k2, t2, hk, h1, h2, h3, h4⟩
      · have hstep : conflictScan env ktxn q (.keyD k :: rest)
            = if k.key = q then true else conflictScan env ktxn q rest := by
          rw [conflictScan, htxn]
          exact if_neg hskip
        rw [hstep]
        push_neg at hskip
        by_cases hkey : k.key = q
        · simp only [if_pos hkey, true_iff]
          exact ⟨k, t, List.mem_cons_self _ _, htxn, hskip.1, hskip.2, hkey⟩
        · rw [if_neg hkey, tailIff]
          constructor
          · rintro ⟨k2, t2, hmem, h1, h2, h3, h4⟩
            exact ⟨k2, t2, List.mem_cons_of_mem _ hmem, h1, h2, h3, h4⟩
          · rintro ⟨k2, t2, hmem, h1, h2, h3, h4⟩
            rcases List.mem_cons.mp hmem with hk | hk
            · cases hk
              exact absurd h4 hkey
            · exact ⟨k2, t2, hk, h1, h2, h3, h4⟩

/-- Claim C3: `putKey` returns `ErrTxnConflict` exactly when the leaf
chain reached for the key holds a key-delta on the same key owned by a
different, still-pending transaction (conjunct 1); otherwise it installs
the new key-delta at the head of that chain, so on conflict the chain is
unchanged (conjunct 2); and both the transactional and non-transactional
`Put` and `Delete` go through this same `putKey` (conjuncts 3 and 4). -/
theorem claim_c3_putKey_conflict (env : Env) (s : DBState) (k : Key) (id : Nat)
    (h : putDescendLoop s k.key (s.pages.length + 1) 1 = some id) :
    (putKey env s k = some .conflict ↔
      ∃ k2 t, Delta.keyD k2 ∈ getChain s id ∧ k2.txn = some t ∧
        some t ≠ k.txn ∧ env t = .pending ∧ k2.key = k.key) ∧
    (putKey env s k = some .conflict ∨
      putKey env s k = some (.ok (setChain s id (.keyD k :: getChain s id)))) ∧
    (∀ txn v, dbPut env s txn k.key v
        = putKey env { s with clock := s.clock + 1 }
            ⟨k.key, txn, [⟨v, s.clock + 1, false⟩], false⟩) ∧
    (∀ txn, dbDelete env s txn k.key
        = putKey env { s with clock := s.clock + 1 }
            ⟨k.key, txn, [⟨[], s.clock + 1, true⟩], false⟩) := by
  have hput : putKey env s k =
      if conflictScan env k.txn k.key (getChain s id) then some .conflict
      else some (.ok (setChain s id (.keyD k :: getChain s id))) := by
    rw [putKey, h]
  refine ⟨?_, ?_, fun txn v => rfl, fun txn => rfl⟩
  · rw [hput, ← conflictScan_iff env k.txn k.key (getChain s id)]
    by_cases hc : conflictScan env k.txn k.key (getChain s id) = true
    · simp [hc]
    · simp [hc]
  · rw [hput]
    by_cases hc : conflictScan env k.txn k.key (getChain s id) = true
    · exact Or.inl (by simp [hc])
    · exact Or.inr (by simp [hc])

/-- A one-leaf state whose chain holds a pending foreign intent on key
0x02, owned by transaction 0. -/
def conflictState : DBState :=
  { pages := [[.keyD ⟨[2], some 0, [⟨[5], 1, false⟩], false⟩,
      .pageD ⟨1, none, [], 0, 0⟩]]
    largestPageID := 1
    pageIDPool := []
    clock := 1
    maxDeltaCount := 10
    maxKeysPerNode := 100 }

/-- Witness for C3: a non-transactional write on key 0x02 against
`conflictState` (transaction 0 pending) conflicts. -/
theorem claim_c3_witness :
    putDescendLoop conflictState [2] (conflictState.pages.length + 1) 1
        = some 1 ∧
    putKey (fun _ => .pending) conflictState ⟨[2], none, [⟨[6], 2, false⟩], false⟩
      = some .conflict :=
  ⟨by decide,
    (claim_c3_putKey_conflict (fun _ => .pending) conflictState
        ⟨[2], none, [⟨[6], 2, false⟩], false⟩ 1 (by decide)).1.mpr
      ⟨⟨[2], some 0, [⟨[5], 1, false⟩], false⟩, 0, by decide, rfl, by decide,
        rfl, rfl⟩⟩

/-! ## Single-threaded executions (claims C5, C10)

From a fresh database, non-transactional `Put`/`Delete` never route (the
root stays a data page when no split runs), so every state reached by
`exec` keeps a single plain chain: key-deltas without transactions over
one data page. -/

/-- A key-delta with no owning transaction. -/
def plainKd (d : Delta) : Prop := ∃ kr, d = Delta.keyD kr ∧ kr.txn = none

/-- States reached by single-threaded, non-transactional executions:
one mapping-table slot whose chain is plain key-deltas over a data
page. -/
structure PlainState (s : DBState) : Prop where
  len : s.pages.length = 1
  shape : ∃ kds p, getChain s 1 = kds ++ [Delta.pageD p] ∧ p.key = none ∧
    ∀ d ∈ kds, plainKd d

theorem getChain_setChain_one (s : DBState) (c : Chain)
    (h : s.pages.length = 1) : getChain (setChain s 1 c) 1 = c := by
  obtain ⟨x, hx⟩ := List.length_eq_one.mp h
  simp [getChain, setChain, hx]

theorem putDescendLoop_plain (s : DBState) (q : Bytes) (fuel : Nat)
    (kds : List Delta) (p : Page) (hchain : getChain s 1 = kds ++ [.pageD p])
    (hp : p.key = none) (hkds : ∀ d ∈ kds, plainKd d) :
    putDescendLoop s q (fuel + 1) 1 = some 1 := by
  cases kds with
  | nil => simp [putDescendLoop, hchain, hp]
  | cons d rest =>
    obtain ⟨kr, rfl, -⟩ := hkds d (List.mem_cons_self d rest)
    simp [putDescendLoop, hchain]

theorem conflictScan_plain (env : Env) (ktxn : Option Nat) (q : Bytes) :
    ∀ c : Chain, (∀ d ∈ c, plainKd d ∨ ∃ p, d = .pageD p) →
      conflictScan env ktxn q c = false
  | [] => fun _ => rfl
  | d :: rest => by
    intro h
    rcases h d (List.mem_cons_self d rest) with ⟨kr, rfl, hn⟩ | ⟨p, rfl⟩
    · rw [show conflictScan env ktxn q (.keyD kr :: rest)
          = conflictScan env ktxn q rest from by rw [conflictScan, hn]]
      exact conflictScan_plain env ktxn q rest
        (fun d2 hd2 => h d2 (List.mem_cons_of_mem _ hd2))
    · rw [conflictScan]
      exact conflictScan_plain env ktxn q rest
        (fun d2 hd2 => h d2 (List.mem_cons_of_mem _ hd2))

/-- On a plain state, `putKey` always succeeds and prepends at the root
slot, for any environment and any key record. -/
theorem putKey_plain (env : Env) (s : DBState) (kr : Key) (h : PlainState s) :
    putKey env s kr = some (.ok (setChain s 1 (.keyD kr :: getChain s 1))) := by
  obtain ⟨kds, p, hchain, hp, hkds⟩ := h.shape
  have hdesc : putDescendLoop s kr.key (s.pages.length + 1) 1 = some 1 := by
    rw [h.len]
    exact putDescendLoop_plain s kr.key 1 kds p hchain hp hkds
  have hscan : conflictScan env kr.txn kr.key (getChain s 1) = false := by
    apply conflictScan_plain
    intro d hd
    rw [hchain] at hd
    rcases List.mem_append.mp hd with hm | hm
    · exact Or.inl (hkds d hm)
    · rcases List.mem_singleton.mp hm with rfl
      exact Or.inr ⟨p, rfl⟩
  simp only [putKey, hdesc, hscan]
  simp

theorem applyOp_put_plain (s : DBState) (k v : Bytes) (h : PlainState s) :
    applyOp s (.put k v) = setChain { s with clock := s.clock + 1 } 1
      (.keyD ⟨k, none, [⟨v, s.clock + 1, false⟩], false⟩ :: getChain s 1) := by
  have h2 : PlainState { s with clock := s.clock + 1 } := ⟨h.len, h.shape⟩
  have hpk := putKey_plain (fun _ => .unknown) { s with clock := s.clock + 1 }
    ⟨k, none, [⟨v, s.clock + 1, false⟩], false⟩ h2
  simp only [applyOp, dbPut]
  rw [hpk]
  rfl

theorem applyOp_del_plain (s : DBState) (k : Bytes) (h : PlainState s) :
    applyOp s (.del k) = setChain { s with clock := s.clock + 1 } 1
      (.keyD ⟨k, none, [⟨[], s.clock + 1, true⟩], false⟩ :: getChain s 1) := by
  have h2 : PlainState { s with clock := s.clock + 1 } := ⟨h.len, h.shape⟩
  have hpk := putKey_plain (fun _ => .unknown) { s with clock := s.clock + 1 }
    ⟨k, none, [⟨[], s.clock + 1, true⟩], false⟩ h2
  simp only [applyOp, dbDelete]
  rw [hpk]
  rfl

/-- Each single-threaded operation prepends one transactionless key-delta
for its key and keeps the state plain. -/
theorem applyOp_plain_step (s : DBState) (op : Op) (h : PlainState s) :
    PlainState (applyOp s op) ∧
    ∃ kr : Key, kr.txn = none ∧
      (∀ k2 v2, op = .put k2 v2 → kr.key = k2 ∧ kr.values = [⟨v2, s.clock + 1, false⟩]) ∧
      (∀ k2, op = .del k2 → kr.key = k2 ∧ kr.values = [⟨[], s.clock + 1, true⟩]) ∧
      getChain (applyOp s op) 1 = .keyD kr :: getChain s 1 ∧
      (applyOp s op).pages.length = 1 := by
  obtain ⟨kds, p, hchain, hp, hkds⟩ := h.shape
  cases op with
  | put k v =>
    rw [applyOp_put_plain s k v h]
    refine ⟨⟨by simp [setChain, h.len], ?_⟩,
      ⟨k, none, [⟨v, s.clock + 1, false⟩], false⟩, rfl,
      ?_, ?_, getChain_setChain_one _ _ h.len, by simp [setChain, h.len]⟩
    · refine ⟨.keyD ⟨k, none, [⟨v, s.clock + 1, false⟩], false⟩ :: kds, p, ?_, hp, ?_⟩
      · rw [getChain_setChain_one { s with clock := s.clock + 1 } _ h.len, hchain,
          List.cons_append]
      · intro d hd
        rcases List.mem_cons.mp hd with rfl | hd2
        · exact ⟨_, rfl, rfl⟩
        · exact hkds d hd2
    · intro k2 v2 he
      cases he
      exact ⟨rfl, rfl⟩
    · intro k2 he
      cases he
  | del k =>
    rw [applyOp_del_plain s k h]
    refine ⟨⟨by simp [setChain, h.len], ?_⟩,
      ⟨k, none, [⟨[], s.clock + 1, true⟩], false⟩, rfl,
      ?_, ?_, getChain_setChain_one _ _ h.len, by simp [setChain, h.len]⟩
    · refine ⟨.keyD ⟨k, none, [⟨[], s.clock + 1, true⟩], false⟩ :: kds, p, ?_, hp, ?_⟩
      · rw [getChain_setChain_one { s with clock := s.clock + 1 } _ h.len, hchain,
          List.cons_append]
      · intro d hd
        rcases List.mem_cons.mp hd with rfl | hd2
        · exact ⟨_, rfl, rfl⟩
        · exact hkds d hd2
    · intro k2 v2 he
      cases he
    · intro k2 he
      cases he
      exact ⟨rfl, rfl⟩

theorem foldl_plain (ops : List Op) :
    ∀ s : DBState, PlainState s → PlainState (ops.foldl applyOp s) := by
  induction ops with
  | nil => exact fun s h => h
  | cons op rest ih =>
    intro s h
    exact ih (applyOp s op) (applyOp_plain_step s op h).1

theorem exec_plain (ops : List Op) : PlainState (exec ops) :=
  foldl_plain ops initState
    ⟨rfl, [], ⟨1, none, [], 0, 0⟩, rfl, rfl, by simp⟩

theorem chainStep_skip (env : Env) (q : Bytes) (att : Nat) :
    ∀ (kds : List Delta) (c : Chain),
      (∀ d ∈ kds, ∃ kr, d = Delta.keyD kr ∧ kr.txn = none ∧ kr.key ≠ q) →
      chainStep env none q att (kds ++ c) = chainStep env none q att c
  | [], c => fun _ => rfl
  | d :: rest, c => by
    intro h
    obtain ⟨kr, rfl, hn, hne⟩ := h d (List.mem_cons_self d rest)
    rw [List.cons_append]
    rw [show chainStep env none q att (.keyD kr :: (rest ++ c))
        = chainStep env none q att (rest ++ c) from by
      simp [chainStep, hn, hne]]
    exact chainStep_skip env q att rest c
      (fun d2 hd2 => h d2 (List.mem_cons_of_mem _ hd2))

/-- The traversal answer on a chain whose first matching key-delta has no
transaction: the version-list verdict of that delta. -/
theorem dbGet_found (s : DBState) (q v : Bytes) (tomb : Bool)
    (kds : List Delta) (K : Key) (c : Chain)
    (hchain : getChain s 1 = kds ++ .keyD K :: c)
    (hkds : ∀ d ∈ kds, ∃ kr, d = Delta.keyD kr ∧ kr.txn = none ∧ kr.key ≠ q)
    (hK : K.key = q) (hKt : K.txn = none)
    (hres : kGetAt (fun _ => .unknown) K none 0 = (if tomb then none else some v, true)) :
    dbGet s q = (if tomb then none else some v, true) := by
  rw [dbGet, dbGetAt, getAtLoop, hchain, chainStep_skip _ _ _ kds _ hkds]
  rw [show chainStep (fun _ => .unknown) none q 0 (.keyD K :: c)
      = .result (if tomb then none else some v, true) from by
    simp [chainStep, hKt, hK, hres]]

/-- Claim C5: in a single-threaded execution, a `Put(k,v)` followed by any
operations that neither delete nor overwrite `k` leaves `Get(k)` returning
`(v, true)`. -/
theorem claim_c5_roundtrip (pre post : List Op) (k v : Bytes)
    (h : ∀ op ∈ post, (∀ v2, op ≠ .put k v2) ∧ op ≠ .del k) :
    dbGet (exec (pre ++ .put k v :: post)) k = (some v, true) := by
  have main : ∀ (post2 : List Op) (s : DBState), PlainState s →
      (∀ op ∈ post2, (∀ v2, op ≠ .put k v2) ∧ op ≠ .del k) →
      (∃ kds K c, getChain s 1 = kds ++ .keyD K :: c ∧
        (∀ d ∈ kds, ∃ kr, d = Delta.keyD kr ∧ kr.txn = none ∧ kr.key ≠ k) ∧
        K.key = k ∧ K.txn = none ∧ (∃ t, K.values = [⟨v, t, false⟩])) →
      ∃ kds K c, getChain (post2.foldl applyOp s) 1 = kds ++ .keyD K :: c ∧
        (∀ d ∈ kds, ∃ kr, d = Delta.keyD kr ∧ kr.txn = none ∧ kr.key ≠ k) ∧
        K.key = k ∧ K.txn = none ∧ (∃ t, K.values = [⟨v, t, false⟩]) := by
    intro post2
    induction post2 with
    | nil => exact fun s _ _ hs => hs
    | cons op rest ih =>
      intro s hplain hops ⟨kds, K, c, hchain, hkds, hKk, hKt, hKv⟩
      obtain ⟨hplain2, kr, hkrt, hput, hdel, hchain2, -⟩ :=
        applyOp_plain_step s op hplain
      refine ih (applyOp s op) hplain2
        (fun op2 ho2 => hops op2 (List.mem_cons_of_mem _ ho2))
        ⟨.keyD kr :: kds, K, c, ?_, ?_, hKk, hKt, hKv⟩
      · rw [hchain2, hchain, List.cons_append]
      · intro d hd
        rcases List.mem_cons.mp hd with rfl | hd2
        · refine ⟨kr, rfl, hkrt, ?_⟩
          cases op with
          | put k2 v2 =>
            have := (hput k2 v2 rfl).1
            rw [this]
            intro he
            exact (hops (.put k2 v2) (List.mem_cons_self _ _)).1 v2 (by rw [he])
          | del k2 =>
            have := (hdel k2 rfl).1
            rw [this]
            intro he
            exact (hops (.del k2) (List.mem_cons_self _ _)).2 (by rw [he])
        · exact hkds d hd2
  have hpre : PlainState (exec pre) := exec_plain pre
  obtain ⟨hplain1, kr, hkrt, hput, -, hchain1, -⟩ :=
    applyOp_plain_step (exec pre) (.put k v) hpre
  obtain ⟨hkrk, hkrv⟩ := hput k v rfl
  have hstart : ∃ kds K c,
      getChain (applyOp (exec pre) (.put k v)) 1 = kds ++ .keyD K :: c ∧
      (∀ d ∈ kds, ∃ kr2, d = Delta.keyD kr2 ∧ kr2.txn = none ∧ kr2.key ≠ k) ∧
      K.key = k ∧ K.txn = none ∧ (∃ t, K.values = [⟨v, t, false⟩]) := by
    refine ⟨[], kr, getChain (exec pre) 1, by simpa using hchain1, by simp,
      hkrk, hkrt, ⟨(exec pre).clock + 1, hkrv⟩⟩
  obtain ⟨kds, K, c, hchain, hkds, hKk, hKt, t, hKv⟩ :=
    main post (applyOp (exec pre) (.put k v))
      hplain1 h hstart
  have hexec : exec (pre ++ .put k v :: post)
      = post.foldl applyOp (applyOp (exec pre) (.put k v)) := by
    rw [exec, List.foldl_append, List.foldl_cons, exec]
  rw [hexec]
  have := dbGet_found (post.foldl applyOp (applyOp (exec pre) (.put k v)))
    k v false kds K c hchain hkds hKk hKt
    (by simp [kGetAt, hKt, hKv, kGetAtLoop])
  simpa using this

/-- Witness for C5: `Put 0x01 ↦ 0x07`, then an unrelated `Put` and
`Delete`, then `Get 0x01`. -/
theorem claim_c5_witness :
    (∀ op ∈ [Op.put [2] [9], Op.del [3]],
      (∀ v2, op ≠ .put [1] v2) ∧ op ≠ .del [1]) ∧
    dbGet (exec ([] ++ .put [1] [7] :: [Op.put [2] [9], Op.del [3]])) [1]
      = (some [7], true) := by
  have hyp : ∀ op ∈ [Op.put [2] [9], Op.del [3]],
      (∀ v2, op ≠ .put [1] v2) ∧ op ≠ .del [1] := by
    intro op hop
    rcases List.mem_cons.mp hop with rfl | hop2
    · exact ⟨fun v2 he => by simp at he, by simp⟩
    · rcases List.mem_cons.mp hop2 with rfl | hop3
      · exact ⟨fun v2 he => by simp at he, by simp⟩
      · cases hop3
  exact ⟨hyp, claim_c5_roundtrip [] [Op.put [2] [9], Op.del [3]] [1] [7] hyp⟩

/-- Claim C10: at the public interface, after `Delete(k)` a `Get(k)`
returns `(nil, true)` — the present flag distinguishes a deleted key from
a never-written key, for which `Get` returns `(nil, false)`. -/
theorem claim_c10_delete_present (ops : List Op) (k : Bytes) :
    dbGet (exec (ops ++ [.del k])) k = (none, true) ∧
    dbGet initState k = (none, false) := by
  constructor
  · have hpre : PlainState (exec ops) := exec_plain ops
    obtain ⟨-, kr, hkrt, -, hdel, hchain, -⟩ :=
      applyOp_plain_step (exec ops) (.del k) hpre
    obtain ⟨hkrk, hkrv⟩ := hdel k rfl
    have hexec : exec (ops ++ [.del k]) = applyOp (exec ops) (.del k) := by
      rw [exec, List.foldl_append, exec]
      rfl
    rw [hexec]
    have := dbGet_found (applyOp (exec ops) (.del k)) k [] true
      [] kr (getChain (exec ops) 1) (by simpa using hchain) (by simp)
      hkrk hkrt (by simp [kGetAt, hkrt, hkrv, kGetAtLoop])
    simpa using this
  · simp [dbGet, dbGetAt, getAtLoop, initState, getChain, chainStep]

/-! ## Byte-string order facts (for claims C4, C7) -/

theorem bytesCompare_eq_iff : ∀ a b : Bytes, bytesCompare a b = .eq ↔ a = b
  | [], [] => by simp [bytesCompare]
  | [], _ :: _ => by simp [bytesCompare]
  | _ :: _, [] => by simp [bytesCompare]
  | a :: as, b :: bs => by
    simp only [bytesCompare]
    rcases Nat.lt_trichotomy a b with h | h | h
    · simp [h, Nat.ne_of_lt h]
    · subst h
      simp [Nat.lt_irrefl, bytesCompare_eq_iff as bs]
    · simp [Nat.lt_asymm h, h, Nat.ne_of_gt h]

theorem bytesCompare_gt_flip : ∀ a b : Bytes,
    bytesCompare a b = .gt → bytesCompare b a ≠ .gt
  | [], [] => by simp [bytesCompare]
  | [], _ :: _ => by simp [bytesCompare]
  | _ :: _, [] => by simp [bytesCompare]
  | a :: as, b :: bs => by
    simp only [bytesCompare]
    rcases Nat.lt_trichotomy a b with h | h | h
    · simp [h]
    · subst h
      simp only [Nat.lt_irrefl, if_false]
      exact bytesCompare_gt_flip as bs
    · simp only [Nat.lt_asymm h, if_false, h, if_true]
      simp

theorem lexLe_refl : ∀ a : Bytes, lexLe a a = true
  | [] => rfl
  | x :: xs => by simp [lexLe, lexLe_refl xs]

theorem lexLe_total : ∀ a b : Bytes, lexLe a b = true ∨ lexLe b a = true
  | [], _ => Or.inl rfl
  | _ :: _, [] => Or.inr rfl
  | a :: as, b :: bs => by
    rcases Nat.lt_trichotomy a b with h | h | h
    · exact Or.inl (by simp [lexLe, h])
    · subst h
      rcases lexLe_total as bs with h2 | h2
      · exact Or.inl (by simp [lexLe, h2])
      · exact Or.inr (by simp [lexLe, h2])
    · exact Or.inr (by simp [lexLe, h])

theorem lexLe_trans : ∀ a b c : Bytes,
    lexLe a b = true → lexLe b c = true → lexLe a c = true
  | [], _, _ => fun _ _ => rfl
  | _ :: _, [], _ => fun h _ => by cases h
  | _ :: _, _ :: _, [] => fun _ h => by cases h
  | a :: as, b :: bs, c :: cs => by
    simp only [lexLe, Bool.or_eq_true, Bool.and_eq_true, decide_eq_true_eq]
    rintro (h1 | ⟨rfl, h1⟩) (h2 | ⟨rfl, h2⟩)
    · exact Or.inl (Nat.lt_trans h1 h2)
    · exact Or.inl h1
    · exact Or.inl h2
    · exact Or.inr ⟨rfl, lexLe_trans as bs cs h1 h2⟩

/-- Key records ordered by key alone (the order the claim's "ascending
key order" refers to). -/
def keyLe (a b : Key) : Prop := lexLe a.key b.key = true

theorem byKeyLess_true_le (a b : Key) (h : byKeyLess a b = true) : keyLe a b := by
  unfold byKeyLess at h
  rcases hc : bytesCompare a.key b.key with _ | _ | _ <;> rw [hc] at h
  · exact (bytesCompare_ne_gt_iff _ _).mp (by rw [hc]; simp)
  · exact (bytesCompare_ne_gt_iff _ _).mp (by rw [hc]; simp)
  · cases h

theorem byKeyLess_false_le (a b : Key) (h : byKeyLess a b = false) : keyLe b a := by
  unfold byKeyLess at h
  rcases hc : bytesCompare a.key b.key with _ | _ | _ <;> rw [hc] at h
  · cases h
  · have heq := (bytesCompare_eq_iff _ _).mp hc
    unfold keyLe
    rw [heq]
    exact lexLe_refl _
  · exact (bytesCompare_ne_gt_iff _ _).mp (bytesCompare_gt_flip _ _ hc)

theorem insertByKey_mem (a x : Key) : ∀ l : List Key,
    x ∈ insertByKey a l → x = a ∨ x ∈ l
  | [] => by
    intro h
    rcases List.mem_singleton.mp h with rfl
    exact Or.inl rfl
  | b :: rest => by
    intro h
    rw [insertByKey] at h
    by_cases hab : byKeyLess a b = true
    · rw [if_pos hab] at h
      rcases List.mem_cons.mp h with rfl | h2
      · exact Or.inl rfl
      · exact Or.inr h2
    · rw [if_neg hab] at h
      rcases List.mem_cons.mp h with rfl | h2
      · exact Or.inr (List.mem_cons_self _ _)
      · rcases insertByKey_mem a x rest h2 with h3 | h3
        · exact Or.inl h3
        · exact Or.inr (List.mem_cons_of_mem _ h3)

theorem insertByKey_pairwise (a : Key) : ∀ l : List Key,
    List.Pairwise keyLe l → List.Pairwise keyLe (insertByKey a l)
  | [] => fun _ => List.pairwise_singleton _ _
  | b :: rest => by
    intro hp
    rw [insertByKey]
    obtain ⟨hb, hrest⟩ := List.pairwise_cons.mp hp
    by_cases hab : byKeyLess a b = true
    · rw [if_pos hab]
      refine List.Pairwise.cons ?_ hp
      intro y hy
      rcases List.mem_cons.mp hy with rfl | hy2
      · exact byKeyLess_true_le _ _ hab
      · exact lexLe_trans _ _ _ (byKeyLess_true_le a b hab) (hb y hy2)
    · rw [if_neg hab]
      refine List.Pairwise.cons ?_ (insertByKey_pairwise a rest hrest)
      intro y hy
      rcases insertByKey_mem a y rest hy with rfl | hy2
      · exact byKeyLess_false_le _ _ (by simpa using hab)
      · exact hb y hy2

theorem sortByKey_pairwise : ∀ l : List Key, List.Pairwise keyLe (sortByKey l)
  | [] => List.Pairwise.nil
  | a :: rest => insertByKey_pairwise a (sortByKey rest) (sortByKey_pairwise rest)

theorem insertByKey_mem_iff (a x : Key) : ∀ l : List Key,
    x ∈ insertByKey a l ↔ x = a ∨ x ∈ l
  | [] => by simp [insertByKey]
  | b :: rest => by
    rw [insertByKey]
    by_cases hab : byKeyLess a b = true
    · rw [if_pos hab]
      simp
    · rw [if_neg hab]
      rw [List.mem_cons, List.mem_cons, insertByKey_mem_iff a x rest]
      tauto

theorem sortByKey_mem_iff (x : Key) : ∀ l : List Key,
    x ∈ sortByKey l ↔ x ∈ l
  | [] => Iff.rfl
  | a :: rest => by
    rw [sortByKey, insertByKey_mem_iff, sortByKey_mem_iff x rest, List.mem_cons]

/-! ## Consolidation (claim C4) -/

theorem mergePrev_mem (acc : List Key) (b a : Key) (h : a ∈ mergePrev acc b) :
    (∃ a0 ∈ acc, a.key = a0.key) ∨ a = b := by
  rcases acc with _ | ⟨prev, acc2⟩
  · rcases List.mem_singleton.mp h with rfl
    exact Or.inr rfl
  · rw [mergePrev] at h
    by_cases hbk : b.key = prev.key
    · rw [if_pos hbk] at h
      rcases List.mem_cons.mp h with rfl | h2
      · exact Or.inl ⟨prev, List.mem_cons_self _ _, rfl⟩
      · exact Or.inl ⟨a, List.mem_cons_of_mem _ h2, rfl⟩
    · rw [if_neg hbk] at h
      rcases List.mem_cons.mp h with rfl | h2
      · exact Or.inr rfl
      · exact Or.inl ⟨a, h2, rfl⟩

theorem mergePrev_flipPairwise (acc : List Key) (b : Key)
    (hacc : List.Pairwise (fun x y => keyLe y x) acc)
    (hle : ∀ a ∈ acc, keyLe a b) :
    List.Pairwise (fun x y => keyLe y x) (mergePrev acc b) := by
  rcases acc with _ | ⟨prev, acc2⟩
  · exact List.pairwise_singleton _ _
  · obtain ⟨hprev, hacc2⟩ := List.pairwise_cons.mp hacc
    rw [mergePrev]
    by_cases hbk : b.key = prev.key
    · rw [if_pos hbk]
      exact List.Pairwise.cons (fun y hy => hprev y hy) hacc2
    · rw [if_neg hbk]
      exact List.Pairwise.cons (fun y hy => hle y hy) hacc

theorem mergePrev_keys (acc : List Key) (b : Key) (x : Bytes) :
    x ∈ (mergePrev acc b).map Key.key ↔
      x ∈ acc.map Key.key ∨ x = b.key := by
  rcases acc with _ | ⟨prev, acc2⟩
  · simp [mergePrev]
  · rw [mergePrev]
    by_cases hbk : b.key = prev.key
    · rw [if_pos hbk]
      simp only [List.map_cons, List.mem_cons, hbk]
      tauto
    · rw [if_neg hbk]
      simp only [List.map_cons, List.mem_cons]
      tauto

theorem mergeLoop_sorted : ∀ (pk ks acc : List Key),
    List.Pairwise keyLe pk → List.Pairwise keyLe ks →
    List.Pairwise (fun a b => keyLe b a) acc →
    (∀ a ∈ acc, ∀ b ∈ pk, keyLe a b) →
    (∀ a ∈ acc, ∀ b ∈ ks, keyLe a b) →
    List.Pairwise keyLe (mergeLoop acc pk ks)
  | [], [], acc => by
    intro _ _ hacc _ _
    rw [mergeLoop]
    exact List.pairwise_reverse.mpr hacc
  | p :: pk, [], acc => by
    intro hpk hks hacc hap hak
    obtain ⟨hphead, hptail⟩ := List.pairwise_cons.mp hpk
    rw [mergeLoop]
    refine mergeLoop_sorted pk [] (p :: acc) hptail List.Pairwise.nil
      (List.Pairwise.cons (fun y hy => hap y hy p (List.mem_cons_self p pk)) hacc)
      ?_ ?_
    · intro a ha b hb
      rcases List.mem_cons.mp ha with rfl | ha2
      · exact hphead b hb
      · exact hap a ha2 b (List.mem_cons_of_mem _ hb)
    · intro a _ b hb
      cases hb
  | [], b :: ks, acc => by
    intro hpk hks hacc hap hak
    obtain ⟨hbhead, hbtail⟩ := List.pairwise_cons.mp hks
    rw [mergeLoop]
    refine mergeLoop_sorted [] ks (mergePrev acc b) hpk hbtail
      (mergePrev_flipPairwise acc b hacc
        (fun a ha => hak a ha b (List.mem_cons_self b ks)))
      (fun a _ c hc => by cases hc) ?_
    intro a ha c hc
    rcases mergePrev_mem acc b a ha with ⟨a0, ha0, hkeq⟩ | rfl
    · show lexLe a.key c.key = true
      rw [hkeq]
      exact hak a0 ha0 c (List.mem_cons_of_mem _ hc)
    · exact hbhead c hc
  | p :: pk, b :: ks, acc => by
    intro hpk hks hacc hap hak
    obtain ⟨hphead, hptail⟩ := List.pairwise_cons.mp hpk
    obtain ⟨hbhead, hbtail⟩ := List.pairwise_cons.mp hks
    rw [mergeLoop]
    by_cases hcmp : bytesCompare p.key b.key ≠ .gt
    · rw [if_pos hcmp]
      have hpb : keyLe p b := (bytesCompare_ne_gt_iff _ _).mp hcmp
      refine mergeLoop_sorted pk (b :: ks) (p :: acc) hptail hks
        (List.Pairwise.cons (fun y hy => hap y hy p (List.mem_cons_self p pk)) hacc)
        ?_ ?_
      · intro a ha c hc
        rcases List.mem_cons.mp ha with rfl | ha2
        · exact hphead c hc
        · exact hap a ha2 c (List.mem_cons_of_mem _ hc)
      · intro a ha c hc
        rcases List.mem_cons.mp ha with rfl | ha2
        · rcases List.mem_cons.mp hc with rfl | hc2
          · exact hpb
          · exact lexLe_trans _ _ _ hpb (hbhead c hc2)
        · exact hak a ha2 c hc
    · rw [if_neg hcmp]
      have hgt : bytesCompare p.key b.key = .gt := not_not.mp hcmp
      have hbp : keyLe b p :=
        (bytesCompare_ne_gt_iff _ _).mp (bytesCompare_gt_flip _ _ hgt)
      refine mergeLoop_sorted (p :: pk) ks (mergePrev acc b) hpk hbtail
        (mergePrev_flipPairwise acc b hacc
          (fun a ha => hak a ha b (List.mem_cons_self b ks)))
        ?_ ?_
      · intro a ha c hc
        rcases mergePrev_mem acc b a ha with ⟨a0, ha0, hkeq⟩ | rfl
        · show lexLe a.key c.key = true
          rw [hkeq]
          exact hap a0 ha0 c hc
        · rcases List.mem_cons.mp hc with rfl | hc2
          · exact hbp
          · exact lexLe_trans _ _ _ hbp (hphead c hc2)
      · intro a ha c hc
        rcases mergePrev_mem acc b a ha with ⟨a0, ha0, hkeq⟩ | rfl
        · show lexLe a.key c.key = true
          rw [hkeq]
          exact hak a0 ha0 c (List.mem_cons_of_mem _ hc)
        · exact hbhead c hc
  termination_by pk ks _ => pk.length + ks.length

theorem mergeLoop_mem_keys : ∀ (pk ks acc : List Key) (x : Bytes),
    (x ∈ (mergeLoop acc pk ks).map Key.key) ↔
      (x ∈ acc.map Key.key ∨ x ∈ pk.map Key.key ∨ x ∈ ks.map Key.key)
  | [], [], acc, x => by simp [mergeLoop]
  | p :: pk, [], acc, x => by
    rw [mergeLoop, mergeLoop_mem_keys pk [] (p :: acc) x]
    simp only [List.map_cons, List.mem_cons, List.map_nil, List.not_mem_nil]
    tauto
  | [], b :: ks, acc, x => by
    rw [mergeLoop, mergeLoop_mem_keys [] ks (mergePrev acc b) x, mergePrev_keys]
    simp only [List.map_cons, List.mem_cons, List.map_nil, List.not_mem_nil]
    tauto
  | p :: pk, b :: ks, acc, x => by
    rw [mergeLoop]
    by_cases hcmp : bytesCompare p.key b.key ≠ .gt
    · rw [if_pos hcmp, mergeLoop_mem_keys pk (b :: ks) (p :: acc) x]
      simp only [List.map_cons, List.mem_cons]
      tauto
    · rw [if_neg hcmp, mergeLoop_mem_keys (p :: pk) ks (mergePrev acc b) x,
        mergePrev_keys]
      simp only [List.map_cons, List.mem_cons]
      tauto
  termination_by pk ks _ _ => pk.length + ks.length

theorem consolidatePass_fst_committed (env : Env) : ∀ c : Chain,
    ∀ k2 ∈ (consolidatePass env c).1,
      (k2.txn = none ∨ ∃ t, k2.txn = some t ∧ env t = .committed) ∧
        k2.read = false
  | [] => by intro k2 h; cases h
  | .keyD k :: rest => by
    intro k2 hk2
    have tail := consolidatePass_fst_committed env rest
    rcases htxn : k.txn with _ | t
    · by_cases hr : k.read
      · rw [show (consolidatePass env (.keyD k :: rest)).1
            = (consolidatePass env rest).1 from by
          simp [consolidatePass, htxn, hr]] at hk2
        exact tail k2 hk2
      · rw [show (consolidatePass env (.keyD k :: rest)).1
            = k :: (consolidatePass env rest).1 from by
          simp [consolidatePass, htxn, hr]] at hk2
        rcases List.mem_cons.mp hk2 with rfl | hk3
        · exact ⟨Or.inl htxn, by simpa using hr⟩
        · exact tail k2 hk3
    · by_cases hcm : env t = .committed
      · by_cases hr : k.read
        · rw [show (consolidatePass env (.keyD k :: rest)).1
              = (consolidatePass env rest).1 from by
            simp [consolidatePass, htxn, hcm, hr]] at hk2
          exact tail k2 hk2
        · rw [show (consolidatePass env (.keyD k :: rest)).1
              = k :: (consolidatePass env rest).1 from by
            simp [consolidatePass, htxn, hcm, hr]] at hk2
          rcases List.mem_cons.mp hk2 with rfl | hk3
          · exact ⟨Or.inr ⟨t, htxn, hcm⟩, by simpa using hr⟩
          · exact tail k2 hk3
      · by_cases hpd : env t = .pending
        · rw [show (consolidatePass env (.keyD k :: rest)).1
              = (consolidatePass env rest).1 from by
            simp [consolidatePass, htxn, hcm, hpd]] at hk2
          exact tail k2 hk2
        · rw [show (consolidatePass env (.keyD k :: rest)).1
              = (consolidatePass env rest).1 from by
            simp [consolidatePass, htxn, hcm, hpd]] at hk2
          exact tail k2 hk2
  | .pageD p :: rest => by
    intro k2 hk2
    rw [show (consolidatePass env (.pageD p :: rest)).1
        = (consolidatePass env rest).1 from by simp [consolidatePass]] at hk2
    exact consolidatePass_fst_committed env rest k2 hk2

theorem consolidatePass_pending_filter (env : Env) : ∀ c : Chain,
    (consolidatePass env c).2.1 = c.filter (fun d => isPendingNode env d)
  | [] => rfl
  | .keyD k :: rest => by
    have tail := consolidatePass_pending_filter env rest
    rcases htxn : k.txn with _ | t
    · rw [show (consolidatePass env (.keyD k :: rest)).2.1
          = (consolidatePass env rest).2.1 from by simp [consolidatePass, htxn],
        tail, List.filter_cons]
      simp [isPendingNode, htxn]
    · by_cases hpd : env t = .pending
      · have hcm : env t ≠ .committed := by rw [hpd]; simp
        rw [show (consolidatePass env (.keyD k :: rest)).2.1
            = .keyD k :: (consolidatePass env rest).2.1 from by
          simp [consolidatePass, htxn, hcm, hpd], tail, List.filter_cons]
        simp [isPendingNode, htxn, hpd]
      · by_cases hcm : env t = .committed
        · rw [show (consolidatePass env (.keyD k :: rest)).2.1
              = (consolidatePass env rest).2.1 from by
            simp [consolidatePass, htxn, hcm], tail, List.filter_cons]
          simp [isPendingNode, htxn, hpd]
        · rw [show (consolidatePass env (.keyD k :: rest)).2.1
              = (consolidatePass env rest).2.1 from by
            simp [consolidatePass, htxn, hcm, hpd], tail, List.filter_cons]
          simp [isPendingNode, htxn, hpd]
  | .pageD p :: rest => by
    rw [show (consolidatePass env (.pageD p :: rest)).2.1
        = (consolidatePass env rest).2.1 from by simp [consolidatePass],
      consolidatePass_pending_filter env rest, List.filter_cons]
    simp [isPendingNode]

/-- The new base page `consolidate` builds: the old base with its keys
replaced by the merge of the old keys and the sorted collected keys
(part_006 lines 71-92). -/
def consolidatedPage (env : Env) (c : Chain) (basePage : Page) : Page :=
  { basePage with
    keys := mergeLoop [] basePage.keys (sortByKey (consolidatePass env c).1) }

/-- Claim C4: when the effective delta count exceeds `MaxDeltaCount` and
the tail is a data page, `consolidate` replaces the chain with the
still-pending key-deltas in their original order (a filter of the old
chain, so every kept node is a pending key-delta: aborted deltas and
read intents are gone, and the new head is the first preserved delta or
the base if none is pending) followed by exactly one page-delta
(conjunct 1); that page's keys merge the old base with the collected key
records, each of which is committed or transactionless and not a read
intent (conjunct 2); the merged keys are in ascending key order whenever
the base's were (conjunct 3), and their key set is the union of the
base's and the collected records' keys (conjunct 4). -/
theorem claim_c4_consolidate (env : Env) (s : DBState) (id : Nat)
    (basePage : Page)
    (hcnt : ¬ deltaCount env (getChain s id) ≤ s.maxDeltaCount)
    (hbase : (consolidatePass env (getChain s id)).2.2 = some basePage)
    (hkey : basePage.key = none)
    (hsorted : List.Pairwise keyLe basePage.keys) :
    consolidate env s id = some (setChain s id
      ((getChain s id).filter (fun d => isPendingNode env d) ++
        [.pageD (consolidatedPage env (getChain s id) basePage)])) ∧
    (∀ k2 ∈ (consolidatePass env (getChain s id)).1,
      (k2.txn = none ∨ ∃ t, k2.txn = some t ∧ env t = .committed) ∧
        k2.read = false) ∧
    List.Pairwise keyLe (consolidatedPage env (getChain s id) basePage).keys ∧
    (∀ x : Bytes,
      x ∈ (consolidatedPage env (getChain s id) basePage).keys.map Key.key ↔
      (x ∈ basePage.keys.map Key.key ∨
        x ∈ ((consolidatePass env (getChain s id)).1).map Key.key)) := by
  refine ⟨?_, consolidatePass_fst_committed env (getChain s id), ?_, ?_⟩
  · simp only [consolidate]
    rw [if_neg hcnt]
    simp only [hbase, hkey]
    rw [consolidatePass_pending_filter env (getChain s id)]
    simp [consolidatedPage, hkey]
  · exact mergeLoop_sorted basePage.keys _ [] hsorted (sortByKey_pairwise _)
      List.Pairwise.nil (fun a ha => by cases ha) (fun a ha => by cases ha)
  · intro x
    show x ∈ (mergeLoop [] basePage.keys
        (sortByKey (consolidatePass env (getChain s id)).1)).map Key.key ↔ _
    rw [mergeLoop_mem_keys basePage.keys _ [] x]
    simp only [List.map_nil, List.not_mem_nil, false_or]
    constructor
    · rintro (h | h)
      · exact Or.inl h
      · rcases List.mem_map.mp h with ⟨k2, hk2, rfl⟩
        exact Or.inr (List.mem_map.mpr ⟨k2, (sortByKey_mem_iff k2 _).mp hk2, rfl⟩)
    · rintro (h | h)
      · exact Or.inl h
      · rcases List.mem_map.mp h with ⟨k2, hk2, rfl⟩
        exact Or.inr (List.mem_map.mpr ⟨k2, (sortByKey_mem_iff k2 _).mpr hk2, rfl⟩)

/-- A one-delta state over an empty base page with `MaxDeltaCount = 0`,
so consolidation fires. -/
def consolState : DBState :=
  { pages := [[.keyD ⟨[1], none, [⟨[4], 1, false⟩], false⟩,
      .pageD ⟨1, none, [], 0, 0⟩]]
    largestPageID := 1
    pageIDPool := []
    clock := 1
    maxDeltaCount := 0
    maxKeysPerNode := 100 }

/-- Witness for C4: consolidating `consolState` merges its single
transactionless delta into the base page. -/
theorem claim_c4_witness :
    (¬ deltaCount (fun _ => .unknown) (getChain consolState 1) ≤
        consolState.maxDeltaCount ∧
      (consolidatePass (fun _ => .unknown) (getChain consolState 1)).2.2
        = some ⟨1, none, [], 0, 0⟩ ∧
      (⟨1, none, [], 0, 0⟩ : Page).key = none) ∧
    consolidate (fun _ => .unknown) consolState 1
      = some (setChain consolState 1
        ((getChain consolState 1).filter
            (fun d => isPendingNode (fun _ => .unknown) d) ++
          [.pageD (consolidatedPage (fun _ => .unknown) (getChain consolState 1)
            ⟨1, none, [], 0, 0⟩)])) :=
  ⟨⟨by decide, by decide, rfl⟩,
    (claim_c4_consolidate (fun _ => .unknown) consolState 1 ⟨1, none, [], 0, 0⟩
      (by decide) (by decide) rfl List.Pairwise.nil).1⟩

/-! ## Split (claim C7) -/

/-- The id `split` allocates for the left child. -/
def splitLeftId (s : DBState) : Nat := (nextPageID s).2

/-- The id `split` allocates for the right child. -/
def splitRightId (s : DBState) : Nat := (nextPageID (nextPageID s).1).2

/-- The left child data page: `keys[0..mid)`. -/
def splitLeftPage (s : DBState) (p : Page) : Page :=
  ⟨splitLeftId s, none, p.keys.take (p.keys.length / 2), 0, 0⟩

/-- The right child data page: `keys[mid..)`. -/
def splitRightPage (s : DBState) (p : Page) : Page :=
  ⟨splitRightId s, none, p.keys.drop (p.keys.length / 2), 0, 0⟩

/-- The state after both allocations and both child-slot writes. -/
def splitChildState (s : DBState) (chains : Chain × Chain) : DBState :=
  setChain (setChain (nextPageID (nextPageID s).1).1 (splitLeftId s) chains.1)
    (splitRightId s) chains.2

/-- The chain `split` installs at the parent slot: one index page with
the original page's id, the separator, and the two child ids. -/
def splitIndexChain (s : DBState) (p : Page) (sep : Bytes) : Chain :=
  [.pageD ⟨p.id, some sep, [], splitLeftId s, splitRightId s⟩]

/-- The state after a lost install CAS: the child ids go back to the
page-id pool. -/
def poolReturned (s2 : DBState) (lid rid : Nat) : DBState :=
  { s2 with pageIDPool := s2.pageIDPool ++ [lid, rid] }

theorem relinkLoop_suffix (sep : Bytes) : ∀ (c lch rch l2 r2 : Chain),
    relinkLoop sep c lch rch = some (l2, r2) →
    ∃ dl dr, l2 = dl ++ lch ∧ r2 = dr ++ rch ∧
      (∀ d ∈ dl, ∃ k2, d = Delta.keyD k2) ∧
      (∀ d ∈ dr, ∃ k2, d = Delta.keyD k2)
  | [], lch, rch, l2, r2 => by
    intro h
    rw [relinkLoop] at h
    cases h
    exact ⟨[], [], rfl, rfl, by simp, by simp⟩
  | .pageD p :: rest, lch, rch, l2, r2 => by
    intro h
    rw [relinkLoop] at h
    cases h
  | .keyD k :: rest, lch, rch, l2, r2 => by
    intro h
    rw [relinkLoop] at h
    by_cases hcmp : bytesCompare sep k.key ≠ .gt
    · rw [if_pos hcmp] at h
      obtain ⟨dl, dr, h1, h2, h3, h4⟩ :=
        relinkLoop_suffix sep rest lch (.keyD k :: rch) l2 r2 h
      refine ⟨dl, dr ++ [.keyD k], h1, by rw [h2, List.append_assoc]; rfl, h3, ?_⟩
      intro d hd
      rcases List.mem_append.mp hd with hm | hm
      · exact h4 d hm
      · rcases List.mem_singleton.mp hm with rfl
        exact ⟨k, rfl⟩
    · rw [if_neg hcmp] at h
      obtain ⟨dl, dr, h1, h2, h3, h4⟩ :=
        relinkLoop_suffix sep rest (.keyD k :: lch) rch l2 r2 h
      refine ⟨dl ++ [.keyD k], dr, by rw [h1, List.append_assoc]; rfl, h2, ?_, h4⟩
      intro d hd
      rcases List.mem_append.mp hd with hm | hm
      · exact h3 d hm
      · rcases List.mem_singleton.mp hm with rfl
        exact ⟨k, rfl⟩

/-- Claim C7: when the base page holds more than `MaxKeysPerNode` keys,
`split` takes `mid = |keys|/2` and `sep = keys[mid].key`, publishes a
left child holding `keys[0..mid)` and a right child holding `keys[mid..)`
(their slots carry the relinked preserved deltas over those bases —
conjuncts 1 and 3), and the successful install CAS replaces the parent
slot with a single index page `{separator: sep, left: L, right: R}`
carrying the original page's id (conjunct 2); a failed install CAS
returns `L` and `R` to the page-id pool and restarts the loop
(conjunct 4). -/
theorem claim_c7_split (s : DBState) (id : Nat) (p : Page) (midEntry : Key)
    (chains : Chain × Chain)
    (hbase : chainBase (getChain s id) = some p)
    (hlen : ¬ p.keys.length ≤ s.maxKeysPerNode)
    (hmid : p.keys.get? (p.keys.length / 2) = some midEntry)
    (hrel : relinkLoop midEntry.key (getChain s id).dropLast
      [.pageD (splitLeftPage s p)] [.pageD (splitRightPage s p)]
      = some chains) :
    splitBuild s id = some (.built (splitChildState s chains)
      (splitLeftId s) (splitRightId s) (splitIndexChain s p midEntry.key)) ∧
    splitLoop s id [] = some (setChain (splitChildState s chains) id
      (splitIndexChain s p midEntry.key)) ∧
    (∃ dl dr, chains.1 = dl ++ [.pageD (splitLeftPage s p)] ∧
      chains.2 = dr ++ [.pageD (splitRightPage s p)] ∧
      (∀ d ∈ dl, ∃ k2, d = Delta.keyD k2) ∧
      (∀ d ∈ dr, ∃ k2, d = Delta.keyD k2)) ∧
    (∀ rest : List Bool, splitLoop s id (false :: rest) = splitLoop
      (poolReturned (splitChildState s chains) (splitLeftId s) (splitRightId s))
      id rest) := by
  simp only [splitLeftPage, splitRightPage, splitLeftId, splitRightId] at hrel
  have hb : splitBuild s id = some (.built (splitChildState s chains)
      (splitLeftId s) (splitRightId s) (splitIndexChain s p midEntry.key)) := by
    simp only [splitBuild, hbase]
    rw [if_neg hlen]
    simp only [hmid, hrel]
    simp only [splitChildState, splitLeftId, splitRightId, splitIndexChain]
  refine ⟨hb, ?_, ?_, ?_⟩
  · rw [splitLoop, hb]
  · exact relinkLoop_suffix midEntry.key _ _ _ _ _ hrel
  · intro rest
    rw [splitLoop, hb]
    simp only [poolReturned]

/-- A one-page state over a two-key base page with `MaxKeysPerNode = 1`,
so splitting fires: `mid = 1`, `sep = 0x01`. -/
def splitState : DBState :=
  { pages := [[.pageD ⟨1, none, [⟨[0], none, [⟨[5], 1, false⟩], false⟩,
      ⟨[1], none, [⟨[6], 1, false⟩], false⟩], 0, 0⟩]]
    largestPageID := 1
    pageIDPool := []
    clock := 1
    maxDeltaCount := 10
    maxKeysPerNode := 1 }

/-- Witness for C7: splitting `splitState` installs an index page with
separator 0x01 over children 2 and 3. -/
theorem claim_c7_witness :
    (chainBase (getChain splitState 1)
        = some ⟨1, none, [⟨[0], none, [⟨[5], 1, false⟩], false⟩,
          ⟨[1], none, [⟨[6], 1, false⟩], false⟩], 0, 0⟩ ∧
      relinkLoop [1] (getChain splitState 1).dropLast
        [.pageD (splitLeftPage splitState ⟨1, none,
          [⟨[0], none, [⟨[5], 1, false⟩], false⟩,
            ⟨[1], none, [⟨[6], 1, false⟩], false⟩], 0, 0⟩)]
        [.pageD (splitRightPage splitState ⟨1, none,
          [⟨[0], none, [⟨[5], 1, false⟩], false⟩,
            ⟨[1], none, [⟨[6], 1, false⟩], false⟩], 0, 0⟩)]
        = some ([.pageD (splitLeftPage splitState ⟨1, none,
            [⟨[0], none, [⟨[5], 1, false⟩], false⟩,
              ⟨[1], none, [⟨[6], 1, false⟩], false⟩], 0, 0⟩)],
          [.pageD (splitRightPage splitState ⟨1, none,
            [⟨[0], none, [⟨[5], 1, false⟩], false⟩,
              ⟨[1], none, [⟨[6], 1, false⟩], false⟩], 0, 0⟩)])) ∧
    splitLoop splitState 1 [] = some (setChain
      (splitChildState splitState
        ([.pageD (splitLeftPage splitState ⟨1, none,
            [⟨[0], none, [⟨[5], 1, false⟩], false⟩,
              ⟨[1], none, [⟨[6], 1, false⟩], false⟩], 0, 0⟩)],
          [.pageD (splitRightPage splitState ⟨1, none,
            [⟨[0], none, [⟨[5], 1, false⟩], false⟩,
              ⟨[1], none, [⟨[6], 1, false⟩], false⟩], 0, 0⟩)]))
      1 (splitIndexChain splitState ⟨1, none,
        [⟨[0], none, [⟨[5], 1, false⟩], false⟩,
          ⟨[1], none, [⟨[6], 1, false⟩], false⟩], 0, 0⟩ [1])) :=
  ⟨⟨by decide, by decide⟩,
    (claim_c7_split splitState 1
      ⟨1, none, [⟨[0], none, [⟨[5], 1, false⟩], false⟩,
        ⟨[1], none, [⟨[6], 1, false⟩], false⟩], 0, 0⟩
      ⟨[1], none, [⟨[6], 1, false⟩], false⟩ _
      (by decide) (by decide) (by decide) (by decide)).2.1⟩

/-! ## Chain shape invariant (claim C8) -/

/-- The chain invariant: every non-tail node is a key-delta and the tail
is the unique page-delta. The empty chain is an unpopulated slot. -/
def chainWF : Chain → Bool
  | [] => true
  | [.pageD _] => true
  | [.keyD _] => false
  | .keyD _ :: d :: rest => chainWF (d :: rest)
  | .pageD _ :: _ :: _ => false

/-- Every chain in the mapping table satisfies the chain invariant. -/
def stateWF (s : DBState) : Prop := ∀ c ∈ s.pages, chainWF c = true

theorem chainWF_cons_keyD (k : Key) (c : Chain) (h : c ≠ []) :
    chainWF (.keyD k :: c) = chainWF c := by
  cases c with
  | nil => cases h rfl
  | cons d rest => rfl

theorem chainWF_append (p : Page) :
    ∀ kds : Chain, (∀ d ∈ kds, ∃ k2, d = Delta.keyD k2) →
      chainWF (kds ++ [.pageD p]) = true
  | [] => fun _ => rfl
  | d :: rest => by
    intro h
    obtain ⟨k2, rfl⟩ := h d (List.mem_cons_self d rest)
    rw [List.cons_append, chainWF_cons_keyD _ _ (by simp)]
    exact chainWF_append p rest (fun d2 hd2 => h d2 (List.mem_cons_of_mem _ hd2))

theorem chainWF_decomp : ∀ c : Chain, chainWF c = true → c ≠ [] →
    ∃ kds p, c = kds ++ [Delta.pageD p] ∧ ∀ d ∈ kds, ∃ k2, d = Delta.keyD k2
  | [], _, hne => absurd rfl hne
  | [.pageD p], _, _ => ⟨[], p, rfl, by simp⟩
  | [.keyD _], hwf, _ => by cases hwf
  | .keyD k :: d :: rest, hwf, _ => by
    obtain ⟨kds, p, heq, hkds⟩ :=
      chainWF_decomp (d :: rest) hwf (by simp)
    refine ⟨.keyD k :: kds, p, by rw [List.cons_append, ← heq], ?_⟩
    intro d2 hd2
    rcases List.mem_cons.mp hd2 with rfl | hd3
    · exact ⟨k, rfl⟩
    · exact hkds d2 hd3
  | .pageD _ :: _ :: _, hwf, _ => by cases hwf

theorem chainWF_iff (c : Chain) : chainWF c = true ↔
    (c = [] ∨ ∃ kds p, c = kds ++ [Delta.pageD p] ∧
      ∀ d ∈ kds, ∃ k2, d = Delta.keyD k2) := by
  constructor
  · intro h
    by_cases hne : c = []
    · exact Or.inl hne
    · exact Or.inr (chainWF_decomp c h hne)
  · rintro (rfl | ⟨kds, p, rfl, hkds⟩)
    · rfl
    · exact chainWF_append p kds hkds

theorem getChain_mem (s : DBState) (id : Nat) (h : getChain s id ≠ []) :
    getChain s id ∈ s.pages := by
  by_cases hlt : id - 1 < s.pages.length
  · rw [getChain, List.getD_eq_getElem _ _ hlt]
    exact List.getElem_mem hlt
  · rw [getChain, List.getD_eq_default _ _ (by omega)] at h
    cases h rfl

theorem stateWF_setChain (s : DBState) (id : Nat) (c : Chain)
    (hs : stateWF s) (hc : chainWF c = true) : stateWF (setChain s id c) := by
  intro c2 hc2
  rcases List.mem_or_eq_of_mem_set hc2 with hm | rfl
  · exact hs c2 hm
  · exact hc

theorem putDescendLoop_nonempty (s : DBState) (q : Bytes) :
    ∀ (fuel id id2 : Nat), putDescendLoop s q fuel id = some id2 →
      getChain s id2 ≠ []
  | 0, _, _ => by intro h; cases h
  | fuel + 1, id, id2 => by
    intro h
    rcases hc : getChain s id with _ | ⟨d, rest⟩
    · rw [putDescendLoop, hc] at h
      cases h
    · cases d with
      | pageD p =>
        rcases hp : p.key with _ | sep
        · simp only [putDescendLoop, hc, hp] at h
          cases h
          rw [hc]
          simp
        · simp only [putDescendLoop, hc, hp] at h
          exact putDescendLoop_nonempty s q fuel _ id2 h
      | keyD k =>
        simp only [putDescendLoop, hc] at h
        cases h
        rw [hc]
        simp

theorem putKey_preserves_wf (env : Env) (s : DBState) (kr : Key)
    (s2 : DBState) (hput : putKey env s kr = some (.ok s2))
    (hwf : stateWF s) : stateWF s2 := by
  rcases hd : putDescendLoop s kr.key (s.pages.length + 1) 1 with _ | id
  · rw [putKey, hd] at hput
    cases hput
  · simp only [putKey, hd] at hput
    by_cases hscan : conflictScan env kr.txn kr.key (getChain s id) = true
    · rw [if_pos hscan] at hput
      cases hput
    · rw [if_neg hscan] at hput
      cases hput
      have hne := putDescendLoop_nonempty s kr.key _ _ _ hd
      have hcw : chainWF (getChain s id) = true :=
        hwf (getChain s id) (getChain_mem s id hne)
      exact stateWF_setChain s id _ hwf
        (by rw [chainWF_cons_keyD _ _ hne, hcw])

theorem consolidatePass_keyD (env : Env) :
    ∀ c : Chain, ∀ d ∈ (consolidatePass env c).2.1, ∃ k2, d = Delta.keyD k2
  | [] => by intro d hd; cases hd
  | .keyD k :: rest => by
    intro d hd
    have tail := consolidatePass_keyD env rest
    rcases htxn : k.txn with _ | t
    · rw [show (consolidatePass env (.keyD k :: rest)).2.1
          = (consolidatePass env rest).2.1 from by
        simp [consolidatePass, htxn]] at hd
      exact tail d hd
    · by_cases hcm : env t = .committed
      · rw [show (consolidatePass env (.keyD k :: rest)).2.1
            = (consolidatePass env rest).2.1 from by
          simp [consolidatePass, htxn, hcm]] at hd
        exact tail d hd
      · by_cases hpd : env t = .pending
        · rw [show (consolidatePass env (.keyD k :: rest)).2.1
              = .keyD k :: (consolidatePass env rest).2.1 from by
            simp [consolidatePass, htxn, hcm, hpd]] at hd
          rcases List.mem_cons.mp hd with rfl | hd2
          · exact ⟨k, rfl⟩
          · exact tail d hd2
        · rw [show (consolidatePass env (.keyD k :: rest)).2.1
              = (consolidatePass env rest).2.1 from by
            simp [consolidatePass, htxn, hcm, hpd]] at hd
          exact tail d hd
  | .pageD p :: rest => by
    intro d hd
    rw [show (consolidatePass env (.pageD p :: rest)).2.1
        = (consolidatePass env rest).2.1 from by simp [consolidatePass]] at hd
    exact consolidatePass_keyD env rest d hd

theorem consolidate_preserves_wf (env : Env) (s : DBState) (id : Nat)
    (s2 : DBState) (h : consolidate env s id = some s2) (hwf : stateWF s) :
    stateWF s2 := by
  simp only [consolidate] at h
  by_cases hcnt : deltaCount env (getChain s id) ≤ s.maxDeltaCount
  · rw [if_pos hcnt] at h
    cases h
    exact hwf
  · rw [if_neg hcnt] at h
    rcases hbase : (consolidatePass env (getChain s id)).2.2 with _ | basePage
    · simp only [hbase] at h
      cases h
    · simp only [hbase] at h
      rcases hkey : basePage.key with _ | sep
      · simp only [hkey] at h
        cases h
        exact stateWF_setChain s id _ hwf
          (chainWF_append _ _ (consolidatePass_keyD env (getChain s id)))
      · simp only [hkey] at h
        cases h

theorem growPages_wf (idx : Nat) : ∀ (n : Nat) (pages : List Chain),
    idx - pages.length ≤ n → (∀ c ∈ pages, chainWF c = true) →
    ∀ c ∈ growPages pages idx, chainWF c = true := by
  intro n
  induction n with
  | zero =>
    intro pages hle hwf c hc
    rw [growPages, if_pos (by omega)] at hc
    exact hwf c hc
  | succ m ih =>
    intro pages hle hwf c hc
    by_cases hif : idx ≤ pages.length
    · rw [growPages, if_pos hif] at hc
      exact hwf c hc
    · rw [growPages, if_neg hif] at hc
      refine ih _ ?_ ?_ c hc
      · simp only [List.length_append, List.length_replicate]
        omega
      · intro c2 hc2
        rcases List.mem_append.mp hc2 with hm | hm
        · exact hwf c2 hm
        · rw [List.eq_of_mem_replicate hm]
          rfl

theorem nextPageID_wf (s : DBState) (hwf : stateWF s) :
    stateWF (nextPageID s).1 := by
  rw [nextPageID]
  rcases hpool : s.pageIDPool with _ | ⟨i, rest⟩
  · exact growPages_wf _ _ s.pages (Nat.le_refl _) hwf
  · exact growPages_wf _ _ s.pages (Nat.le_refl _) hwf

theorem relinkLoop_wf (sep : Bytes) : ∀ (c lch rch l2 r2 : Chain),
    relinkLoop sep c lch rch = some (l2, r2) →
    lch ≠ [] → chainWF lch = true → rch ≠ [] → chainWF rch = true →
    l2 ≠ [] ∧ chainWF l2 = true ∧ r2 ≠ [] ∧ chainWF r2 = true
  | [], lch, rch, l2, r2 => by
    intro h h1 h2 h3 h4
    rw [relinkLoop] at h
    cases h
    exact ⟨h1, h2, h3, h4⟩
  | .pageD p :: rest, lch, rch, l2, r2 => by
    intro h
    rw [relinkLoop] at h
    cases h
  | .keyD k :: rest, lch, rch, l2, r2 => by
    intro h h1 h2 h3 h4
    rw [relinkLoop] at h
    by_cases hcmp : bytesCompare sep k.key ≠ .gt
    · rw [if_pos hcmp] at h
      exact relinkLoop_wf sep rest lch _ l2 r2 h h1 h2 (by simp)
        (by rw [chainWF_cons_keyD _ _ h3, h4])
    · rw [if_neg hcmp] at h
      exact relinkLoop_wf sep rest _ rch l2 r2 h (by simp)
        (by rw [chainWF_cons_keyD _ _ h1, h2]) h3 h4

theorem splitBuild_wf (s : DBState) (id : Nat) (s3 : DBState)
    (lid rid : Nat) (newRoot : Chain)
    (h : splitBuild s id = some (.built s3 lid rid newRoot))
    (hwf : stateWF s) : stateWF s3 ∧ chainWF newRoot = true := by
  simp only [splitBuild] at h
  rcases hbase : chainBase (getChain s id) with _ | p
  · simp only [hbase] at h
    cases h
  · simp only [hbase] at h
    by_cases hlen : p.keys.length ≤ s.maxKeysPerNode
    · rw [if_pos hlen] at h
      cases h
    · rw [if_neg hlen] at h
      rcases hmid : p.keys.get? (p.keys.length / 2) with _ | midEntry
      · simp only [hmid] at h
        cases h
      · simp only [hmid] at h
        rcases hrel : relinkLoop midEntry.key (getChain s id).dropLast
            [.pageD ⟨(nextPageID s).2, none, p.keys.take (p.keys.length / 2), 0, 0⟩]
            [.pageD ⟨(nextPageID (nextPageID s).1).2, none,
              p.keys.drop (p.keys.length / 2), 0, 0⟩] with _ | chains
        · simp only [hrel] at h
          cases h
        · simp only [hrel] at h
          cases h
          have hwf2 : stateWF (nextPageID (nextPageID s).1).1 :=
            nextPageID_wf _ (nextPageID_wf s hwf)
          obtain ⟨-, hl, -, hr⟩ := relinkLoop_wf midEntry.key _ _ _ _ _ hrel
            (by simp) rfl (by simp) rfl
          exact ⟨stateWF_setChain _ _ _ (stateWF_setChain _ _ _ hwf2 hl) hr, rfl⟩

theorem splitLoop_preserves_wf : ∀ (oracle : List Bool) (s : DBState)
    (id : Nat) (s2 : DBState), splitLoop s id oracle = some s2 →
    stateWF s → stateWF s2 := by
  intro oracle
  induction oracle with
  | nil =>
    intro s id s2 h hwf
    rw [splitLoop] at h
    rcases hb : splitBuild s id with _ | b
    · rw [hb] at h
      cases h
    · rw [hb] at h
      cases b with
      | stop =>
        cases h
        exact hwf
      | built s3 lid rid newRoot =>
        cases h
        obtain ⟨hs3, hnr⟩ := splitBuild_wf s id s3 lid rid newRoot hb hwf
        exact stateWF_setChain s3 id newRoot hs3 hnr
  | cons b rest ih =>
    intro s id s2 h hwf
    rw [splitLoop] at h
    rcases hb2 : splitBuild s id with _ | bb
    · rw [hb2] at h
      cases h
    · rw [hb2] at h
      cases bb with
      | stop =>
        cases h
        exact hwf
      | built s3 lid rid newRoot =>
        obtain ⟨hs3, hnr⟩ := splitBuild_wf s id s3 lid rid newRoot hb2 hwf
        cases b with
        | true =>
          cases h
          exact stateWF_setChain s3 id newRoot hs3 hnr
        | false =>
          exact ih _ id s2 h hs3

/-- Claim C8: the chain invariant — exactly one page-delta per populated
chain, and it is the tail (conjunct 1 characterizes the invariant) —
holds initially (conjunct 2) and is preserved by `putKey`'s prepend
(conjunct 3), by `consolidate`'s replacement chain (conjunct 4), and by
the chains `split` installs for its children and the parent slot
(conjunct 5). -/
theorem claim_c8_chain_invariant :
    (∀ c : Chain, chainWF c = true ↔
      (c = [] ∨ ∃ kds p, c = kds ++ [Delta.pageD p] ∧
        ∀ d ∈ kds, ∃ k2, d = Delta.keyD k2)) ∧
    stateWF initState ∧
    (∀ env s kr s2, putKey env s kr = some (.ok s2) → stateWF s → stateWF s2) ∧
    (∀ env s id s2, consolidate env s id = some s2 → stateWF s → stateWF s2) ∧
    (∀ s id oracle s2, splitLoop s id oracle = some s2 → stateWF s → stateWF s2) :=
  ⟨chainWF_iff,
    by intro c hc; rcases List.mem_singleton.mp hc with rfl; rfl,
    fun env s kr s2 h hwf => putKey_preserves_wf env s kr s2 h hwf,
    fun env s id s2 h hwf => consolidate_preserves_wf env s id s2 h hwf,
    fun s id oracle s2 h hwf => splitLoop_preserves_wf oracle s id s2 h hwf⟩

/-- Witness for C8 at a concrete step: a successful `putKey` on the
well-formed `conflictState` (key 0x03 does not collide with the pending
intent) preserves the invariant. -/
theorem claim_c8_witness :
    (putKey (fun _ => .pending) conflictState ⟨[3], none, [⟨[8], 2, false⟩], false⟩
        = some (.ok (setChain conflictState 1
          (.keyD ⟨[3], none, [⟨[8], 2, false⟩], false⟩ :: getChain conflictState 1)))
      ∧ stateWF conflictState) ∧
    stateWF (setChain conflictState 1
      (.keyD ⟨[3], none, [⟨[8], 2, false⟩], false⟩ :: getChain conflictState 1)) :=
  ⟨⟨by decide, by intro c hc; rcases List.mem_singleton.mp hc with rfl; rfl⟩,
    claim_c8_chain_invariant.2.2.1 (fun _ => .pending) conflictState
      ⟨[3], none, [⟨[8], 2, false⟩], false⟩ _ (by decide)
      (by intro c hc; rcases List.mem_singleton.mp hc with rfl; rfl)⟩

/-- Witness for C9: a commit followed by a close and another commit. -/
theorem claim_c9_witness :
    (([.committed, .aborted, .committed] : List TxnStatus) ≠ [] ∧
      ∀ t ∈ ([.committed, .aborted, .committed] : List TxnStatus),
        t = TxnStatus.committed ∨ t = TxnStatus.aborted) ∧
    (runFinishes .pending [.committed, .aborted, .committed]).2.head? = some none :=
  ⟨⟨by decide, by decide⟩,
    (claim_c9_finish_once [.committed, .aborted, .committed] (by decide)
      (by decide)).1⟩

end Skeleton
